import Mathlib

set_option maxHeartbeats 1000000

/-!
Verification development for `swh/fuse/fs/artifact.py` (Software Heritage
virtual filesystem, artifact layer).

The Python source is shallowly embedded: each relevant class method becomes a
pure Lean function over explicit inputs (the metadata cache, the blob fetcher,
the history sequence, configuration parameters).  Python strings are embedded
as `List Char` (so slicing, `startswith`, `split` and concatenation map to
`List.take`/`List.drop`/`List.isPrefixOf`/`splitOnSlash`/`++`), and fallible
code returns `Except`.
-/

/-- Convert a string literal to its character list (Python strings are
modelled as `List Char`). -/
def strL (s : String) : List Char := s.toList

/-- The five Software Heritage object kinds (`CONTENT`, `DIRECTORY`,
`REVISION`, `RELEASE`, `SNAPSHOT` imported from `swh.model.identifiers`). -/
inductive ObjectType where
  | cnt
  | dir
  | rev
  | rel
  | snp
deriving DecidableEq, Repr

/-- A Software Heritage persistent identifier (`SWHID`): an object kind plus
the hex digest `object_id`. -/
structure Swhid where
  objectType : ObjectType
  objectId : List Char
deriving DecidableEq, Repr

/-- The three-letter tag used in the canonical string form of a SWHID. -/
def objectTypeTag : ObjectType → List Char
  | .cnt => strL "cnt"
  | .dir => strL "dir"
  | .rev => strL "rev"
  | .rel => strL "rel"
  | .snp => strL "snp"

/-- `str(swhid)`: the canonical string form `swh:1:<tag>:<object_id>`. -/
def swhidStr (s : Swhid) : List Char :=
  strL "swh:1:" ++ objectTypeTag s.objectType ++ ':' :: s.objectId

/-- The textual name of an object type (`swhid.object_type` is one of these
strings in the Python model). -/
def objectTypeName : ObjectType → List Char
  | .cnt => strL "content"
  | .dir => strL "directory"
  | .rev => strL "revision"
  | .rel => strL "release"
  | .snp => strL "snapshot"

/-- `Path(root_path, rest)` for a POSIX path: joining with `/`, where joining
onto the empty path yields `rest` itself. -/
def pathJoin (rp rest : List Char) : List Char :=
  if rp.isEmpty then rest else rp ++ '/' :: rest

theorem objectTypeTag_length (t : ObjectType) : (objectTypeTag t).length = 3 := by
  cases t <;> rfl

theorem objectTypeTag_inj {a b : ObjectType} (h : objectTypeTag a = objectTypeTag b) :
    a = b := by
  cases a <;> cases b <;> first | rfl | (exfalso; revert h; decide)

theorem swhidStr_inj : Function.Injective swhidStr := by
  intro a b h
  unfold swhidStr at h
  have hlen : (strL "swh:1:" ++ objectTypeTag a.objectType ++ [':']).length
      = (strL "swh:1:" ++ objectTypeTag b.objectType ++ [':']).length := by
    simp [objectTypeTag_length]
  have h' : (strL "swh:1:" ++ objectTypeTag a.objectType ++ [':']) ++ a.objectId
      = (strL "swh:1:" ++ objectTypeTag b.objectType ++ [':']) ++ b.objectId := by
    simpa [List.append_assoc] using h
  obtain ⟨h1, h2⟩ := List.append_inj h' hlen
  have h1' : strL "swh:1:" ++ (objectTypeTag a.objectType ++ [':'])
      = strL "swh:1:" ++ (objectTypeTag b.objectType ++ [':']) := by
    simpa [List.append_assoc] using h1
  have htag : objectTypeTag a.objectType = objectTypeTag b.objectType :=
    List.append_cancel_right (List.append_cancel_left h1')
  cases a; cases b
  simp only [Swhid.mk.injEq]
  exact ⟨objectTypeTag_inj htag, h2⟩

/-! ### Decimal rendering

Python's fixed-width formats (`f"{n:04d}"`, `"{:03d}".format(n)`) are
modelled by `natRepr` (decimal digits of a natural number) and `padNum`
(left padding with `'0'` to the requested width; wider numbers are kept
whole, as in Python). -/

/-- The character for a single decimal digit (`'?'` for out-of-range input,
which never occurs for `n % 10`). -/
def digitCh : Nat → Char
  | 0 => '0'
  | 1 => '1'
  | 2 => '2'
  | 3 => '3'
  | 4 => '4'
  | 5 => '5'
  | 6 => '6'
  | 7 => '7'
  | 8 => '8'
  | 9 => '9'
  | _ => '?'

/-- Decimal digit string of a natural number, most significant digit first. -/
def natRepr (n : Nat) : List Char :=
  if _ : n < 10 then [digitCh n]
  else natRepr (n / 10) ++ [digitCh (n % 10)]
decreasing_by exact Nat.div_lt_self (by omega) (by omega)

/-- `f"{n:0wd}"`: decimal rendering left-padded with zeros to width `w`. -/
def padNum (w n : Nat) : List Char :=
  List.replicate (w - (natRepr n).length) '0' ++ natRepr n

theorem digitCh_inj_aux : ∀ a < 10, ∀ b < 10, (digitCh a = digitCh b → a = b) := by
  decide

theorem digitCh_ne_slash_aux : ∀ a < 10, digitCh a ≠ '/' := by decide

theorem digitCh_ne_zero_aux : ∀ a < 10, (a ≠ 0 → digitCh a ≠ '0') := by decide

theorem digitCh_inj {a b : Nat} (ha : a < 10) (hb : b < 10)
    (h : digitCh a = digitCh b) : a = b := digitCh_inj_aux a ha b hb h

theorem digitCh_ne_slash {a : Nat} (ha : a < 10) : digitCh a ≠ '/' :=
  digitCh_ne_slash_aux a ha

theorem digitCh_ne_zero {a : Nat} (ha : a < 10) (h0 : a ≠ 0) : digitCh a ≠ '0' :=
  digitCh_ne_zero_aux a ha h0

theorem natRepr_lt {n : Nat} (h : n < 10) : natRepr n = [digitCh n] := by
  rw [natRepr]; simp [h]

theorem natRepr_ge {n : Nat} (h : ¬ n < 10) :
    natRepr n = natRepr (n / 10) ++ [digitCh (n % 10)] := by
  rw [natRepr]; simp [h]

theorem natRepr_ne_nil (n : Nat) : natRepr n ≠ [] := by
  by_cases h : n < 10
  · rw [natRepr_lt h]; simp
  · rw [natRepr_ge h]; simp

theorem natRepr_length_pos (n : Nat) : 0 < (natRepr n).length := by
  cases h : natRepr n with
  | nil => exact absurd h (natRepr_ne_nil n)
  | cons x xs => simp [h]

theorem natRepr_not_slash (n : Nat) : '/' ∉ natRepr n := by
  induction n using Nat.strong_induction_on with
  | _ n ih =>
    by_cases h : n < 10
    · rw [natRepr_lt h]
      simp [Ne.symm (digitCh_ne_slash h)]
    · rw [natRepr_ge h]
      have hn : n / 10 < n := Nat.div_lt_self (by omega) (by omega)
      have := ih (n / 10) hn
      simp only [List.mem_append, List.mem_singleton]
      push_neg
      exact ⟨this, Ne.symm (digitCh_ne_slash (Nat.mod_lt _ (by omega)))⟩

theorem natRepr_inj : Function.Injective natRepr := by
  intro a b
  induction a using Nat.strong_induction_on generalizing b with
  | _ a ih =>
    intro h
    by_cases ha : a < 10 <;> by_cases hb : b < 10
    · rw [natRepr_lt ha, natRepr_lt hb] at h
      exact digitCh_inj ha hb (by simpa using h)
    · rw [natRepr_lt ha, natRepr_ge hb] at h
      exfalso
      have hlen := congrArg List.length h
      have := natRepr_length_pos (b / 10)
      rw [List.length_append] at hlen
      simp only [List.length_singleton] at hlen
      omega
    · rw [natRepr_ge ha, natRepr_lt hb] at h
      exfalso
      have hlen := congrArg List.length h
      have := natRepr_length_pos (a / 10)
      rw [List.length_append] at hlen
      simp only [List.length_singleton] at hlen
      omega
    · rw [natRepr_ge ha, natRepr_ge hb] at h
      have hlast : digitCh (a % 10) = digitCh (b % 10) :=
        by simpa using List.append_inj_right' h (by simp)
      have hinit : natRepr (a / 10) = natRepr (b / 10) :=
        List.append_inj_left' h (by simp)
      have h1 : a / 10 = b / 10 :=
        ih (a / 10) (Nat.div_lt_self (by omega) (by omega)) hinit
      have h2 : a % 10 = b % 10 :=
        digitCh_inj (Nat.mod_lt _ (by omega)) (Nat.mod_lt _ (by omega)) hlast
      omega

theorem natRepr_head_ne_zero {n : Nat} (hn : n ≠ 0) : (natRepr n).head? ≠ some '0' := by
  induction n using Nat.strong_induction_on with
  | _ n ih =>
    by_cases h : n < 10
    · rw [natRepr_lt h]
      simpa using digitCh_ne_zero h hn
    · rw [natRepr_ge h]
      have hne := natRepr_ne_nil (n / 10)
      cases hb : natRepr (n / 10) with
      | nil => exact absurd hb hne
      | cons x xs =>
        have := ih (n / 10) (Nat.div_lt_self (by omega) (by omega))
          (by omega : n / 10 ≠ 0)
        rw [hb] at this
        simpa using this

theorem padNum_length (w n : Nat) : (padNum w n).length = max w (natRepr n).length := by
  simp [padNum, List.length_append, List.length_replicate]
  omega

theorem padNum_not_slash (w n : Nat) : '/' ∉ padNum w n := by
  simp only [padNum, List.mem_append, List.mem_replicate]
  push_neg
  exact ⟨fun h => by simp_all, natRepr_not_slash n⟩

/-! ### Generic list helpers

These model the Python container idioms used by `artifact.py`: a `set`
guarding first-seen yields, an insertion-ordered `dict` used for grouping,
and `str.split("/")`. -/

/-- First-occurrence deduplication relative to an already-seen set: the
elements of `l` not in `seen`, each kept at its first occurrence, in order.
Models the `subdirs` set idiom of `RevisionHistoryShardByDate.compute_entries`. -/
def dedupFrom [DecidableEq α] : List α → List α → List α
  | _, [] => []
  | seen, x :: xs =>
    if x ∈ seen then dedupFrom seen xs else x :: dedupFrom (x :: seen) xs

/-- Insertion-ordered grouping: the association list produced by the Python
idiom `d.setdefault(key(x), []).append(x)` iterated over `l` — keys in order
of first appearance, each bucket keeping the input order of its members. -/
def groupByKey [DecidableEq β] (key : α → β) : List α → List (β × List α)
  | [] => []
  | x :: xs =>
    (key x, x :: xs.filter (fun a => key a = key x))
      :: groupByKey key (xs.filter (fun a => ¬ (key a = key x)))
termination_by l => l.length
decreasing_by
  exact Nat.lt_succ_of_le (List.length_filter_le _ _)

/-- Python `s.split("/")` on character lists (`"".split("/") == [""]`). -/
def splitOnSlash : List Char → List (List Char)
  | [] => [[]]
  | c :: rest =>
    if c = '/' then [] :: splitOnSlash rest
    else
      match splitOnSlash rest with
      | [] => [[c]]
      | h :: t => (c :: h) :: t

theorem dedupFrom_sub [DecidableEq α] (seen l : List α) :
    ∀ x ∈ dedupFrom seen l, x ∈ l := by
  induction l generalizing seen with
  | nil => simp [dedupFrom]
  | cons y ys ih =>
    intro x hx
    rw [dedupFrom] at hx
    by_cases hy : y ∈ seen
    · simp only [if_pos hy] at hx
      exact List.mem_cons_of_mem _ (ih seen x hx)
    · simp only [if_neg hy, List.mem_cons] at hx
      rcases hx with h | h
      · simp [h]
      · exact List.mem_cons_of_mem _ (ih (y :: seen) x h)

theorem dedupFrom_map_inj [DecidableEq α] [DecidableEq β] {f : α → β}
    (hf : Function.Injective f) (seen l : List α) :
    dedupFrom (seen.map f) (l.map f) = (dedupFrom seen l).map f := by
  induction l generalizing seen with
  | nil => simp [dedupFrom]
  | cons x xs ih =>
    simp only [List.map_cons]
    rw [dedupFrom, dedupFrom]
    by_cases hx : x ∈ seen
    · rw [if_pos (List.mem_map_of_mem f hx), if_pos hx]
      exact ih seen
    · have : f x ∉ seen.map f := by
        intro hmem
        obtain ⟨y, hy, hfy⟩ := List.mem_map.mp hmem
        exact hx (hf hfy ▸ hy)
      rw [if_neg this, if_neg hx]
      simpa [List.map_cons] using (ih (x :: seen))

theorem groupByKey_flatten_perm [DecidableEq β] (key : α → β) (l : List α) :
    List.Perm ((groupByKey key l).map Prod.snd).flatten l := by
  have H : ∀ (n : Nat) (l : List α), l.length = n →
      List.Perm ((groupByKey key l).map Prod.snd).flatten l := by
    intro n
    induction n using Nat.strong_induction_on with
    | _ n ih =>
      intro l hn
      cases l with
      | nil => simp [groupByKey]
      | cons x xs =>
        rw [groupByKey]
        simp only [List.map_cons, List.flatten_cons]
        have hlt : (xs.filter (fun a => ¬ (key a = key x))).length < n := by
          have := List.length_filter_le (fun a => decide (¬ (key a = key x))) xs
          simp only [List.length_cons] at hn
          omega
        have hperm := ih _ hlt (xs.filter (fun a => ¬ (key a = key x))) rfl
        rw [List.cons_append]
        refine List.Perm.cons x ?_
        refine List.Perm.trans (List.Perm.append_left _ hperm) ?_
        have := List.filter_append_perm (fun a => decide (key a = key x)) xs
        simpa [decide_not] using this
  exact H l.length l rfl

theorem groupByKey_mem [DecidableEq β] (key : α → β) (l : List α) (k : β)
    (grp : List α) (hmem : (k, grp) ∈ groupByKey key l) :
    ∀ a ∈ grp, a ∈ l ∧ key a = k := by
  have H : ∀ (n : Nat) (l : List α), l.length = n →
      ∀ (k : β) (grp : List α), (k, grp) ∈ groupByKey key l →
        ∀ a ∈ grp, a ∈ l ∧ key a = k := by
    intro n
    induction n using Nat.strong_induction_on with
    | _ n ih =>
      intro l hn k grp hmem a ha
      cases l with
      | nil => simp [groupByKey] at hmem
      | cons x xs =>
        rw [groupByKey] at hmem
        rcases List.mem_cons.mp hmem with h | h
        · injection h with h1 h2
          subst h1; subst h2
          rcases List.mem_cons.mp ha with h | h
          · subst h; exact ⟨List.mem_cons_self _ _, rfl⟩
          · have := List.mem_filter.mp h
            exact ⟨List.mem_cons_of_mem _ this.1, of_decide_eq_true this.2⟩
        · have hlt : (xs.filter (fun a => ¬ (key a = key x))).length < n := by
            have := List.length_filter_le (fun a => decide (¬ (key a = key x))) xs
            simp only [List.length_cons] at hn
            omega
          obtain ⟨hmem', hk⟩ := ih _ hlt _ rfl k grp h a ha
          exact ⟨List.mem_cons_of_mem _ (List.mem_filter.mp hmem').1, hk⟩
  exact H l.length l rfl k grp hmem

theorem splitOnSlash_no_slash {l : List Char} (h : '/' ∉ l) : splitOnSlash l = [l] := by
  induction l with
  | nil => rfl
  | cons c rest ih =>
    rw [splitOnSlash]
    have hc : ¬ (c = '/') := fun hc => h (by simp [hc])
    rw [if_neg hc]
    rw [ih (fun hm => h (List.mem_cons_of_mem _ hm))]

theorem splitOnSlash_append {a : List Char} (rest : List Char) (h : '/' ∉ a) :
    splitOnSlash (a ++ '/' :: rest) = a :: splitOnSlash rest := by
  induction a with
  | nil => simp [splitOnSlash]
  | cons c cs ih =>
    have hc : ¬ (c = '/') := fun hc => h (by simp [hc])
    rw [List.cons_append, splitOnSlash, if_neg hc,
      ih (fun hm => h (List.mem_cons_of_mem _ hm))]

theorem sep_pre_iff {a b : List Char} (u v : List Char)
    (ha : '/' ∉ a) (hb : '/' ∉ b) :
    (a ++ '/' :: u) <+: (b ++ '/' :: v) ↔ a = b ∧ u <+: v := by
  induction a generalizing b with
  | nil =>
    cases b with
    | nil => simp
    | cons c cs =>
      simp only [List.nil_append, List.cons_append]
      constructor
      · intro hp
        exfalso
        obtain ⟨t, ht⟩ := hp
        rw [List.cons_append] at ht
        injection ht with h1 _
        exact hb (by simp [h1.symm])
      · rintro ⟨h, _⟩; exact absurd h (by simp)
  | cons c cs ih =>
    cases b with
    | nil =>
      simp only [List.cons_append, List.nil_append]
      constructor
      · intro hp
        exfalso
        obtain ⟨t, ht⟩ := hp
        injection ht with h1 _
        exact ha (by simp [h1])
      · rintro ⟨h, _⟩; exact absurd h (by simp)
    | cons d ds =>
      simp only [List.cons_append]
      rw [List.cons_prefix_cons]
      have ha' : '/' ∉ cs := fun hm => ha (List.mem_cons_of_mem _ hm)
      have hb' : '/' ∉ ds := fun hm => hb (List.mem_cons_of_mem _ hm)
      rw [ih ha' hb']
      constructor
      · rintro ⟨h1, h2, h3⟩; exact ⟨by rw [h1, h2], h3⟩
      · intro ⟨h1, h2⟩
        injection h1 with h1a h1b
        exact ⟨h1a, h1b, h2⟩

theorem sep_pre_not {c q : List Char} (hq : '/' ∉ q) (hp : (c ++ ['/']) <+: q) :
    False := by
  have : '/' ∈ c ++ ['/'] := by simp
  exact hq (hp.subset this)

theorem filterMap_if {p : α → Prop} [DecidablePred p] (f : α → β) (l : List α) :
    l.filterMap (fun a => if p a then some (f a) else none)
      = (l.filter (fun a => decide (p a))).map f := by
  induction l with
  | nil => rfl
  | cons x xs ih =>
    by_cases hx : p x
    · rw [List.filterMap_cons, if_pos hx, List.filter_cons,
        if_pos (by simpa using hx), List.map_cons, ih]
    · rw [List.filterMap_cons, if_neg hx, List.filter_cons,
        if_neg (by simpa using hx), ih]

theorem padNum_inj (w : Nat) : Function.Injective (padNum w) := by
  suffices H : ∀ a b : Nat, (natRepr a).length ≤ (natRepr b).length →
      padNum w a = padNum w b → a = b by
    intro a b h
    rcases Nat.le_total (natRepr a).length (natRepr b).length with hle | hle
    · exact H a b hle h
    · exact (H b a hle h.symm).symm
  intro a b hle h
  rcases Nat.lt_or_ge (natRepr a).length (natRepr b).length with hlt | hge
  · exfalso
    have hpos := natRepr_length_pos a
    have h2 : 2 ≤ (natRepr b).length := by omega
    have hb10 : 10 ≤ b := by
      by_contra h'
      push_neg at h'
      rw [natRepr_lt h'] at h2
      simp at h2
    have hhead := natRepr_head_ne_zero (n := b) (by omega)
    have hlen := congrArg List.length h
    rw [padNum_length, padNum_length] at hlen
    rcases Nat.lt_or_ge w (natRepr b).length with hbw | hbw
    · have hmax : max w (natRepr a).length < (natRepr b).length :=
        Nat.max_lt.mpr ⟨hbw, hlt⟩
      rw [hlen] at hmax
      have : (natRepr b).length ≤ max w (natRepr b).length := Nat.le_max_right w _
      omega
    · unfold padNum at h
      have hsplit : w - (natRepr a).length
          = (w - (natRepr b).length) + ((natRepr b).length - (natRepr a).length) := by
        omega
      rw [hsplit, List.replicate_add, List.append_assoc] at h
      have h' := List.append_cancel_left h
      have hone : (natRepr b).length - (natRepr a).length
          = ((natRepr b).length - (natRepr a).length - 1) + 1 := by omega
      rw [hone] at h'
      have : (natRepr b).head? = some '0' := by
        rw [← h']
        rw [List.replicate_succ]
        simp
      exact hhead this
  · have heq : (natRepr a).length = (natRepr b).length := by omega
    unfold padNum at h
    have := List.append_inj h (by simp [List.length_replicate, heq])
    exact natRepr_inj this.2

/-! ### Directory artifact (`Directory.compute_entries`)

The classification of archived tree entries, `artifact.py` lines 73-121.
The metadata-cache record for a tree is its ordered entry list; the blob
fetcher is an explicit function argument.  The Python generator raises
`ValueError` for unclassifiable entries; this is modelled by `Except`. -/

/-- Modelled from the spec: the canonical read-only directory mode from the
entry module (`EntryMode.RDONLY_DIR`, `S_IFDIR | 0o555`), which is not under
`src/`.  Its exact value is irrelevant to the claims; it is a fixed constant
used for every subdirectory child. -/
def EntryMode.RDONLY_DIR : Nat := 0o040555

/-- Modelled from the spec: the canonical read-only file mode from the entry
module (`EntryMode.RDONLY_FILE`, `S_IFREG | 0o444`), not under `src/`. -/
def EntryMode.RDONLY_FILE : Nat := 0o100444

/-- The symlink permission constant of `swh.model.from_disk.DentryPerms`
(the external library import): git mode `0o120000`. -/
def DentryPerms.symlink : Nat := 0o120000

/-- One raw entry of an archived tree's metadata record:
`{"name": ..., "target": ..., "perms": ...}`. -/
structure DirEntryMeta where
  name : List Char
  target : Swhid
  perms : Nat
deriving DecidableEq, Repr

/-- A child yielded by `Directory.compute_entries`: a `Content` file child
(with the raw entry attached as `prefetch`), a `Directory` child, or a
`FuseSymlinkEntry` child with its target text. -/
inductive TreeChild where
  | content (name : List Char) (mode : Nat) (target : Swhid) (prefetch : DirEntryMeta)
  | directory (name : List Char) (mode : Nat) (target : Swhid)
  | symlink (name : List Char) (target : List Char)
deriving DecidableEq, Repr

/-- Classification of a single tree entry, following the `if`/`elif` chain of
`Directory.compute_entries` in order: (1) regular file for a `CONTENT`
target, (2) regular directory for a `DIRECTORY` target (mode forced to
`EntryMode.RDONLY_DIR`), (3) symlink when the recorded permissions equal
`DentryPerms.symlink` (target text fetched from the blob), (4) submodule
symlink for a `REVISION` target (the source also pre-fetches that revision's
metadata, a pure cache side effect), otherwise the `ValueError` of line 121
(whose message has a literal `{...}` placeholder: the `f` prefix is missing
in the source). -/
def computeDirChild (blob : Swhid → List Char) (rootPath : List Char)
    (entry : DirEntryMeta) : Except (List Char) TreeChild :=
  let swhid := entry.target
  let mode := if swhid.objectType = .dir then EntryMode.RDONLY_DIR else entry.perms
  if swhid.objectType = .cnt then
    .ok (.content entry.name mode swhid entry)
  else if swhid.objectType = .dir then
    .ok (.directory entry.name mode swhid)
  else if mode = DentryPerms.symlink then
    .ok (.symlink entry.name (blob swhid))
  else if swhid.objectType = .rev then
    .ok (.symlink entry.name (pathJoin rootPath (strL "archive/" ++ swhidStr swhid)))
  else
    .error (strL "Unknown directory entry type: \x7bswhid.object_type\x7d")

/-- Run a fallible per-element computation over a list, propagating the first
raised error (models a Python generator whose body may raise). -/
def exceptMap (f : α → Except ε β) : List α → Except ε (List β)
  | [] => .ok []
  | x :: xs =>
    match f x with
    | .error e => .error e
    | .ok y =>
      match exceptMap f xs with
      | .error e => .error e
      | .ok ys => .ok (y :: ys)

/-- `Directory.compute_entries`: classify every entry of the tree's metadata
record, in order. -/
def Directory.compute_entries (blob : Swhid → List Char) (rootPath : List Char)
    (metadata : List DirEntryMeta) : Except (List Char) (List TreeChild) :=
  exceptMap (computeDirChild blob rootPath) metadata

theorem exceptMap_ok_mem {f : α → Except ε β} {l : List α} {ys : List β}
    (h : exceptMap f l = .ok ys) {x : α} (hx : x ∈ l) {y : β}
    (hfx : f x = .ok y) : y ∈ ys := by
  induction l generalizing ys with
  | nil => simp at hx
  | cons a as ih =>
    rw [exceptMap] at h
    rcases List.mem_cons.mp hx with hxa | hxas
    · subst hxa
      rw [hfx] at h
      cases hrec : exceptMap f as with
      | error e => rw [hrec] at h; exact absurd h (by simp)
      | ok zs =>
        rw [hrec] at h
        injection h with h'
        subst h'
        exact List.mem_cons_self _ _
    · cases hfa : f a with
      | error e => rw [hfa] at h; exact absurd h (by simp)
      | ok z =>
        rw [hfa] at h
        cases hrec : exceptMap f as with
        | error e => rw [hrec] at h; exact absurd h (by simp)
        | ok zs =>
          rw [hrec] at h
          injection h with h'
          subst h'
          exact List.mem_cons_of_mem _ (ih hrec hxas)

theorem exceptMap_error_of_mem {f : α → Except ε β} {l : List α} {x : α}
    (hx : x ∈ l) {m : ε} (hfx : f x = .error m) :
    ∃ e, exceptMap f l = .error e := by
  induction l with
  | nil => simp at hx
  | cons a as ih =>
    rw [exceptMap]
    rcases List.mem_cons.mp hx with hxa | hxas
    · subst hxa
      rw [hfx]
      exact ⟨m, rfl⟩
    · cases hfa : f a with
      | error e => exact ⟨e, rfl⟩
      | ok z =>
        obtain ⟨e, he⟩ := ih hxas
        rw [he]
        exact ⟨e, rfl⟩

/-! ### Release artifact (`Release.find_root_directory`, `Release.compute_entries`)

`get_metadata` is modelled as a total lookup from identifiers to a record
carrying the two fields the code reads: `metadata["target"]` (for releases)
and `metadata["directory"]` (for revisions).  The Python recursion has no
bound; the embedding takes a fuel argument standing for the call stack, with
`fuel = 0` returning the "never finished" answer.  For any acyclic target
chain (the source's assumption) every sufficiently large fuel computes the
Python result. -/

/-- The metadata record fields read by the release code. -/
structure ObjMeta where
  target : Swhid
  directory : Swhid
deriving Repr

/-- `Release.find_root_directory`: follow targets through releases, stop at a
revision's tree or at a directory, return `None` for any other kind. -/
def Release.find_root_directory (getMeta : Swhid → ObjMeta) :
    Nat → Swhid → Option Swhid
  | 0, _ => none
  | fuel + 1, swhid =>
    if swhid.objectType = .rel then
      Release.find_root_directory getMeta fuel (getMeta swhid).target
    else if swhid.objectType = .rev then
      some (getMeta swhid).directory
    else if swhid.objectType = .dir then
      some swhid
    else
      none

/-- A child of a release's synthetic directory. -/
inductive RelEntry where
  | symlink (name : List Char) (target : List Char)
  | file (name : List Char) (mode : Nat) (content : List Char)
deriving DecidableEq, Repr

/-- `Release.compute_entries`: `meta.json`, `target`, `target_type`, and —
only when target resolution reaches a directory — `root`. -/
def Release.compute_entries (getMeta : Swhid → ObjMeta) (fuel : Nat)
    (rootPath : List Char) (rel : Swhid) : List RelEntry :=
  let metadata := getMeta rel
  let target := metadata.target
  [RelEntry.symlink (strL "meta.json")
      (pathJoin rootPath (strL "meta/" ++ swhidStr rel ++ strL ".json")),
   RelEntry.symlink (strL "target")
      (pathJoin rootPath (strL "archive/" ++ swhidStr target)),
   RelEntry.file (strL "target_type") EntryMode.RDONLY_FILE
      (objectTypeName target.objectType ++ ['\n'])]
  ++ match Release.find_root_directory getMeta fuel target with
     | some target_dir =>
        [RelEntry.symlink (strL "root")
          (pathJoin rootPath (strL "archive/" ++ swhidStr target_dir))]
     | none => []

/-- `ResolvesToDirN getMeta k s d`: transitively following target references
from `s` — through `k` release hops — reaches the tree `d` (directly, or as
the tree of a revision). -/
inductive ResolvesToDirN (getMeta : Swhid → ObjMeta) : Nat → Swhid → Swhid → Prop
  | dirBase (s : Swhid) : s.objectType = .dir → ResolvesToDirN getMeta 0 s s
  | revBase (s : Swhid) : s.objectType = .rev →
      ResolvesToDirN getMeta 0 s (getMeta s).directory
  | relStep (s : Swhid) (k : Nat) (d : Swhid) : s.objectType = .rel →
      ResolvesToDirN getMeta k (getMeta s).target d →
      ResolvesToDirN getMeta (k + 1) s d

/-- The target chain from `s` ends in a blob (after zero or more release
hops). -/
inductive EndsInBlob (getMeta : Swhid → ObjMeta) : Swhid → Prop
  | blob (s : Swhid) : s.objectType = .cnt → EndsInBlob getMeta s
  | relStep (s : Swhid) : s.objectType = .rel →
      EndsInBlob getMeta (getMeta s).target → EndsInBlob getMeta s

theorem find_root_sound (getMeta : Swhid → ObjMeta) :
    ∀ (fuel : Nat) (s d : Swhid),
      Release.find_root_directory getMeta fuel s = some d →
      ∃ k, ResolvesToDirN getMeta k s d := by
  intro fuel
  induction fuel with
  | zero => intro s d h; exact absurd h (by simp [Release.find_root_directory])
  | succ fuel ih =>
    intro s d h
    rw [Release.find_root_directory] at h
    by_cases hrel : s.objectType = .rel
    · rw [if_pos hrel] at h
      obtain ⟨k, hk⟩ := ih _ _ h
      exact ⟨k + 1, ResolvesToDirN.relStep s k d hrel hk⟩
    · rw [if_neg hrel] at h
      by_cases hrev : s.objectType = .rev
      · rw [if_pos hrev] at h
        injection h with h'
        exact ⟨0, h' ▸ ResolvesToDirN.revBase s hrev⟩
      · rw [if_neg hrev] at h
        by_cases hdir : s.objectType = .dir
        · rw [if_pos hdir] at h
          injection h with h'
          exact ⟨0, h' ▸ ResolvesToDirN.dirBase s hdir⟩
        · rw [if_neg hdir] at h
          exact absurd h (by simp)

theorem find_root_complete (getMeta : Swhid → ObjMeta) {k : Nat} {s d : Swhid}
    (h : ResolvesToDirN getMeta k s d) :
    ∀ fuel, k < fuel → Release.find_root_directory getMeta fuel s = some d := by
  induction h with
  | dirBase s hs =>
    intro fuel hf
    cases fuel with
    | zero => omega
    | succ fuel =>
      rw [Release.find_root_directory]
      rw [if_neg (by rw [hs]; decide), if_neg (by rw [hs]; decide),
        if_pos hs]
  | revBase s hs =>
    intro fuel hf
    cases fuel with
    | zero => omega
    | succ fuel =>
      rw [Release.find_root_directory]
      rw [if_neg (by rw [hs]; decide), if_pos hs]
  | relStep s k d hs _ ih =>
    intro fuel hf
    cases fuel with
    | zero => omega
    | succ fuel =>
      rw [Release.find_root_directory, if_pos hs]
      exact ih fuel (by omega)

theorem find_root_blob_none (getMeta : Swhid → ObjMeta) {s : Swhid}
    (h : EndsInBlob getMeta s) :
    ∀ fuel, Release.find_root_directory getMeta fuel s = none := by
  induction h with
  | blob s hs =>
    intro fuel
    cases fuel with
    | zero => rfl
    | succ fuel =>
      rw [Release.find_root_directory]
      rw [if_neg (by rw [hs]; decide), if_neg (by rw [hs]; decide),
        if_neg (by rw [hs]; decide)]
  | relStep s hs _ ih =>
    intro fuel
    cases fuel with
    | zero => rfl
    | succ fuel =>
      rw [Release.find_root_directory, if_pos hs]
      exact ih fuel

/-! ### Snapshot artifact (`Snapshot.compute_entries`)

Branch names arrive as byte strings; `urllib.parse.quote_plus` is the
(external) standard-library encoder: unreserved bytes (ASCII alphanumerics
and `_.-~`) kept, space turned into `+`, every other byte percent-encoded
with uppercase hex. -/

/-- Uppercase hexadecimal digit. -/
def hexDigitU (n : Nat) : Char :=
  if n < 10 then digitCh n
  else if n = 10 then 'A'
  else if n = 11 then 'B'
  else if n = 12 then 'C'
  else if n = 13 then 'D'
  else if n = 14 then 'E'
  else 'F'

/-- A byte kept verbatim by `urllib.parse.quote_plus`: ASCII alphanumerics
and `_`, `.`, `-`, `~`. -/
def quoteSafeByte (b : Nat) : Bool :=
  (48 ≤ b && b ≤ 57) || (65 ≤ b && b ≤ 90) || (97 ≤ b && b ≤ 122)
    || b = 45 || b = 46 || b = 95 || b = 126

/-- `urllib.parse.quote_plus` on one byte. -/
def quotePlusByte (b : Nat) : List Char :=
  if quoteSafeByte b then [Char.ofNat b]
  else if b = 32 then ['+']
  else ['%', hexDigitU (b / 16), hexDigitU (b % 16)]

/-- `urllib.parse.quote_plus` over a byte string. -/
def quotePlus (bs : List Nat) : List Char :=
  (bs.map quotePlusByte).flatten

/-- The bytes of an ASCII string (used for concrete branch names). -/
def asciiBytes (s : String) : List Nat := s.toList.map Char.toNat

/-- One branch of a snapshot's metadata record: name bytes and target. -/
structure BranchMeta where
  name : List Nat
  target : Swhid
deriving Repr

/-- A child of a snapshot's directory: one symlink per branch. -/
inductive SnapEntry where
  | symlink (name : List Char) (target : List Char)
deriving DecidableEq, Repr

/-- `Snapshot.compute_entries`: one symlink per branch, name mangled with
`quote_plus`, target pointing at `archive/<target SWHID>`. -/
def Snapshot.compute_entries (rootPath : List Char) (metadata : List BranchMeta) :
    List SnapEntry :=
  metadata.map (fun branch =>
    SnapEntry.symlink (quotePlus branch.name)
      (pathJoin rootPath (strL "archive/" ++ swhidStr branch.target)))

/-! ### History sharding by date (`RevisionHistoryShardByDate`)

The metadata cache probe `self.fuse.cache.metadata.get(swhid)` is modelled as
a function `Swhid → Option DateMeta` returning the revision's date record
when cached.  The scan over the history sequence carries the `subdirs` seen
set, the `nb_entries` counter and the `is_status_done` flag exactly as the
loop of `compute_entries` does. -/

/-- The date fields read from a cached revision record (`meta["date"]`). -/
structure DateMeta where
  year : Nat
  month : Nat
  day : Nat
deriving DecidableEq, Repr

/-- `RevisionHistoryShardByDate.get_full_sharded_name`:
`f"{date.year:04d}/{date.month:02d}/{date.day:02d}"`. -/
def RevisionHistoryShardByDate.get_full_sharded_name (meta : DateMeta) : List Char :=
  padNum 4 meta.year ++ '/' :: (padNum 2 meta.month ++ '/' :: padNum 2 meta.day)

/-- A child yielded by a by-date listing: a nested shard directory, or the
`.status` progress pseudo-file carrying `done`/`todo`. -/
inductive ByDateEntry where
  | dir (name : List Char)
  | status (done todo : Nat)
deriving DecidableEq, Repr

/-- Result of the scanning loop of
`RevisionHistoryShardByDate.compute_entries`: subdirectory names yielded in
order, the final `is_status_done` flag, and `nb_entries`. -/
structure ByDateResult where
  children : List (List Char)
  statusDone : Bool
  nbEntries : Nat
deriving DecidableEq, Repr

/-- The loop of `RevisionHistoryShardByDate.compute_entries` over the history
sequence (`seen` is the `subdirs` set; `nb_entries` counts every cached
member, before the prefix filter). -/
def byDateScan (cache : Swhid → Option DateMeta) (pre : List Char) (depth : Nat) :
    List Swhid → List (List Char) → ByDateResult
  | [], _ => ⟨[], true, 0⟩
  | s :: rest, seen =>
    match cache s with
    | none =>
      let r := byDateScan cache pre depth rest seen
      ⟨r.children, false, r.nbEntries⟩
    | some meta =>
      let name := RevisionHistoryShardByDate.get_full_sharded_name meta
      if pre.isPrefixOf name then
        let nextPre := (splitOnSlash name).getD depth []
        if nextPre ∈ seen then
          let r := byDateScan cache pre depth rest seen
          ⟨r.children, r.statusDone, r.nbEntries + 1⟩
        else
          let r := byDateScan cache pre depth rest (nextPre :: seen)
          ⟨nextPre :: r.children, r.statusDone, r.nbEntries + 1⟩
      else
        let r := byDateScan cache pre depth rest seen
        ⟨r.children, r.statusDone, r.nbEntries + 1⟩

/-- `RevisionHistoryShardByDate.compute_entries` at prefix `pre`: the shard
subdirectories in first-appearance order, followed by the `.status` file
whenever some member of the history is not yet cached.  (`done` is
`nb_entries`, `todo` is `len(history)`.) -/
def RevisionHistoryShardByDate.compute_entries (cache : Swhid → Option DateMeta)
    (history : List Swhid) (pre : List Char) : List ByDateEntry :=
  let depth := pre.count '/'
  let r := byDateScan cache pre depth history []
  r.children.map ByDateEntry.dir
    ++ (if r.statusDone then [] else [ByDateEntry.status r.nbEntries history.length])

/-- The next-component candidates scanned at prefix `pre`: for each cached
member whose sharded name extends `pre`, the name's component at index
`depth`. -/
def byDateCandidates (cache : Swhid → Option DateMeta) (pre : List Char)
    (depth : Nat) (hist : List Swhid) : List (List Char) :=
  hist.filterMap (fun s =>
    match cache s with
    | none => none
    | some m =>
      let name := RevisionHistoryShardByDate.get_full_sharded_name m
      if pre.isPrefixOf name then some ((splitOnSlash name).getD depth [])
      else none)

theorem byDateScan_statusDone (cache : Swhid → Option DateMeta) (pre : List Char)
    (depth : Nat) (hist : List Swhid) (seen : List (List Char)) :
    (byDateScan cache pre depth hist seen).statusDone
      = hist.all (fun s => (cache s).isSome) := by
  induction hist generalizing seen with
  | nil => rfl
  | cons s rest ih =>
    rw [byDateScan]
    cases hc : cache s with
    | none => simp [hc, List.all_cons]
    | some m =>
      simp only [List.all_cons, hc, Option.isSome_some, Bool.true_and]
      split
      · split
        · exact ih seen
        · exact ih _
      · exact ih seen

theorem byDateScan_nbEntries (cache : Swhid → Option DateMeta) (pre : List Char)
    (depth : Nat) (hist : List Swhid) (seen : List (List Char)) :
    (byDateScan cache pre depth hist seen).nbEntries
      = (hist.filter (fun s => (cache s).isSome)).length := by
  induction hist generalizing seen with
  | nil => rfl
  | cons s rest ih =>
    rw [byDateScan, List.filter_cons]
    cases hc : cache s with
    | none => simp [hc, ih seen]
    | some m =>
      simp only [hc, Option.isSome_some, if_pos]
      split
      · split
        · simp [List.length_cons, ih seen]
        · simp [List.length_cons, ih]
      · simp [List.length_cons, ih seen]

theorem byDateScan_children (cache : Swhid → Option DateMeta) (pre : List Char)
    (depth : Nat) (hist : List Swhid) (seen : List (List Char)) :
    (byDateScan cache pre depth hist seen).children
      = dedupFrom seen (byDateCandidates cache pre depth hist) := by
  induction hist generalizing seen with
  | nil => rfl
  | cons s rest ih =>
    rw [byDateScan]
    rw [show byDateCandidates cache pre depth (s :: rest)
        = (match cache s with
           | none => none
           | some m =>
             let name := RevisionHistoryShardByDate.get_full_sharded_name m
             if pre.isPrefixOf name then some ((splitOnSlash name).getD depth [])
             else none).toList ++ byDateCandidates cache pre depth rest from by
      rw [byDateCandidates, List.filterMap_cons]
      cases cache s with
      | none => simp [byDateCandidates]
      | some m => by_cases h : pre.isPrefixOf (RevisionHistoryShardByDate.get_full_sharded_name m) <;>
          simp [h, byDateCandidates]]
    cases hc : cache s with
    | none => simpa using ih seen
    | some m =>
      simp only
      split
      · rw [Option.toList_some, List.cons_append, List.nil_append, dedupFrom]
        split
        · exact ih seen
        · simp only [List.cons.injEq, true_and]
          exact ih _
      · simpa using ih seen

/-- The subdirectory names seen when listing a by-date shard at prefix
`pre` (the non-`.status` children of `compute_entries`, in order). -/
def byDateSubdirs (cache : Swhid → Option DateMeta) (history : List Swhid)
    (pre : List Char) : List (List Char) :=
  (RevisionHistoryShardByDate.compute_entries cache history pre).filterMap
    (fun e => match e with
      | .dir n => some n
      | .status _ _ => none)

/-- Recursively listing `by-date`: for each year directory its month
directories, for each month its day directories (the paths are built the way
`compute_entries` builds child prefixes: `f"{self.prefix}{next_prefix}/"`). -/
def byDateTree (cache : Swhid → Option DateMeta) (history : List Swhid) :
    List (List Char × List (List Char × List (List Char))) :=
  (byDateSubdirs cache history []).map (fun y =>
    (y, (byDateSubdirs cache history (y ++ ['/'])).map (fun mo =>
      (mo, byDateSubdirs cache history (y ++ '/' :: (mo ++ ['/']))))))

/-- The year/month/day calendar partition of a list of dates: distinct years
in order of first appearance, under each year its distinct months, under each
month its distinct days, rendered with the zero paddings of
`get_full_sharded_name`. -/
def calendarTree (dates : List DateMeta) :
    List (List Char × List (List Char × List (List Char))) :=
  (dedupFrom [] (dates.map (fun m => m.year))).map (fun y =>
    (padNum 4 y,
      (dedupFrom [] ((dates.filter (fun m => m.year = y)).map (fun m => m.month))).map
        (fun mo =>
          (padNum 2 mo,
            (dedupFrom [] ((dates.filter (fun m => m.year = y ∧ m.month = mo)).map
                (fun m => m.day))).map (padNum 2)))))

theorem byDateSubdirs_eq (cache : Swhid → Option DateMeta) (history : List Swhid)
    (pre : List Char) :
    byDateSubdirs cache history pre
      = dedupFrom [] (byDateCandidates cache pre (pre.count '/') history) := by
  unfold byDateSubdirs RevisionHistoryShardByDate.compute_entries
  rw [List.filterMap_append]
  rw [byDateScan_children]
  have h1 : ∀ l : List (List Char),
      (l.map ByDateEntry.dir).filterMap (fun e => match e with
        | .dir n => some n
        | .status _ _ => none) = l := by
    intro l
    induction l with
    | nil => rfl
    | cons x xs ih => simp [List.filterMap_cons, ih]
  rw [h1]
  have h2 : ((if (byDateScan cache pre (pre.count '/') history []).statusDone
        then ([] : List ByDateEntry)
        else [ByDateEntry.status
          (byDateScan cache pre (pre.count '/') history []).nbEntries
          history.length]).filterMap (fun e => match e with
        | .dir n => some n
        | .status _ _ => none)) = [] := by
    split <;> simp
  rw [h2, List.append_nil]

theorem byDateCandidates_all_cached (cache : Swhid → Option DateMeta)
    (pre : List Char) (depth : Nat) (hist : List Swhid)
    (h : ∀ s ∈ hist, (cache s).isSome) :
    byDateCandidates cache pre depth hist
      = (hist.filterMap cache).filterMap (fun m =>
          let name := RevisionHistoryShardByDate.get_full_sharded_name m
          if pre.isPrefixOf name then some ((splitOnSlash name).getD depth [])
          else none) := by
  induction hist with
  | nil => rfl
  | cons s rest ih =>
    have hs := h s (List.mem_cons_self _ _)
    obtain ⟨m, hm⟩ := Option.isSome_iff_exists.mp hs
    rw [byDateCandidates, List.filterMap_cons, List.filterMap_cons, hm]
    simp only
    rw [List.filterMap_cons]
    have ih' := ih (fun x hx => h x (List.mem_cons_of_mem _ hx))
    rw [byDateCandidates] at ih'
    split
    · rw [ih']
    · rw [ih']

theorem shardName_split (m : DateMeta) :
    splitOnSlash (RevisionHistoryShardByDate.get_full_sharded_name m)
      = [padNum 4 m.year, padNum 2 m.month, padNum 2 m.day] := by
  unfold RevisionHistoryShardByDate.get_full_sharded_name
  rw [splitOnSlash_append _ (padNum_not_slash _ _),
    splitOnSlash_append _ (padNum_not_slash _ _),
    splitOnSlash_no_slash (padNum_not_slash _ _)]

theorem filterMap_some_map (f : α → β) (l : List α) :
    l.filterMap (fun a => some (f a)) = l.map f := by
  induction l with
  | nil => rfl
  | cons x xs ih => simp [List.filterMap_cons, ih]

theorem filterMap_none (l : List α) :
    l.filterMap (fun _ => (none : Option β)) = [] := by
  induction l with
  | nil => rfl
  | cons x xs ih => simp [List.filterMap_cons, ih]

theorem dedup_map_inj [DecidableEq α] [DecidableEq β] {f : α → β}
    (hf : Function.Injective f) (l : List α) :
    dedupFrom [] (l.map f) = (dedupFrom [] l).map f := by
  simpa using dedupFrom_map_inj hf [] l

theorem byDate_level0 (dates : List DateMeta) :
    dates.filterMap (fun m =>
      let name := RevisionHistoryShardByDate.get_full_sharded_name m
      if ([] : List Char).isPrefixOf name then some ((splitOnSlash name).getD 0 [])
      else none)
    = dates.map (fun m => padNum 4 m.year) := by
  rw [List.filterMap_congr (g := fun m => some (padNum 4 m.year))]
  · exact filterMap_some_map _ _
  · intro m _
    have hpre : ([] : List Char).isPrefixOf
        (RevisionHistoryShardByDate.get_full_sharded_name m) = true :=
      List.isPrefixOf_iff_prefix.mpr (List.nil_prefix)
    rw [if_pos hpre, shardName_split]
    rfl

theorem byDate_level1 (dates : List DateMeta) (y : Nat) :
    dates.filterMap (fun m =>
      let name := RevisionHistoryShardByDate.get_full_sharded_name m
      if (padNum 4 y ++ ['/']).isPrefixOf name
      then some ((splitOnSlash name).getD 1 []) else none)
    = (dates.filter (fun m => m.year = y)).map (fun m => padNum 2 m.month) := by
  rw [List.filterMap_congr
    (g := fun m => if m.year = y then some (padNum 2 m.month) else none)]
  · exact filterMap_if _ _
  · intro m _
    have hiff := sep_pre_iff (a := padNum 4 y) (b := padNum 4 m.year)
      [] (padNum 2 m.month ++ '/' :: padNum 2 m.day)
      (padNum_not_slash _ _) (padNum_not_slash _ _)
    by_cases hy : m.year = y
    · have hpre : (padNum 4 y ++ ['/']).isPrefixOf
          (RevisionHistoryShardByDate.get_full_sharded_name m) = true :=
        List.isPrefixOf_iff_prefix.mpr (hiff.mpr ⟨by rw [hy], List.nil_prefix⟩)
      rw [if_pos hpre, if_pos hy, shardName_split]
      rfl
    · have hpre : ¬ ((padNum 4 y ++ ['/']).isPrefixOf
          (RevisionHistoryShardByDate.get_full_sharded_name m) = true) := by
        intro hp
        have := (hiff.mp (List.isPrefixOf_iff_prefix.mp hp)).1
        exact hy ((padNum_inj 4 this).symm)
      rw [if_neg hpre, if_neg hy]

theorem byDate_level2 (dates : List DateMeta) (y mo : Nat) :
    dates.filterMap (fun m =>
      let name := RevisionHistoryShardByDate.get_full_sharded_name m
      if (padNum 4 y ++ '/' :: (padNum 2 mo ++ ['/'])).isPrefixOf name
      then some ((splitOnSlash name).getD 2 []) else none)
    = (dates.filter (fun m => m.year = y ∧ m.month = mo)).map
        (fun m => padNum 2 m.day) := by
  rw [List.filterMap_congr
    (g := fun m => if m.year = y ∧ m.month = mo then some (padNum 2 m.day) else none)]
  · exact filterMap_if _ _
  · intro m _
    have hiff1 := sep_pre_iff (a := padNum 4 y) (b := padNum 4 m.year)
      (padNum 2 mo ++ ['/']) (padNum 2 m.month ++ '/' :: padNum 2 m.day)
      (padNum_not_slash _ _) (padNum_not_slash _ _)
    have hiff2 := sep_pre_iff (a := padNum 2 mo) (b := padNum 2 m.month)
      [] (padNum 2 m.day) (padNum_not_slash _ _) (padNum_not_slash _ _)
    by_cases hc : m.year = y ∧ m.month = mo
    · have hpre : (padNum 4 y ++ '/' :: (padNum 2 mo ++ ['/'])).isPrefixOf
          (RevisionHistoryShardByDate.get_full_sharded_name m) = true := by
        refine List.isPrefixOf_iff_prefix.mpr (hiff1.mpr ⟨by rw [hc.1], ?_⟩)
        exact hiff2.mpr ⟨by rw [hc.2], List.nil_prefix⟩
      rw [if_pos hpre, if_pos hc, shardName_split]
      rfl
    · have hpre : ¬ ((padNum 4 y ++ '/' :: (padNum 2 mo ++ ['/'])).isPrefixOf
          (RevisionHistoryShardByDate.get_full_sharded_name m) = true) := by
        intro hp
        obtain ⟨h1, h2⟩ := hiff1.mp (List.isPrefixOf_iff_prefix.mp hp)
        obtain ⟨h3, _⟩ := hiff2.mp h2
        exact hc ⟨(padNum_inj 4 h1).symm, (padNum_inj 2 h3).symm⟩
      rw [if_neg hpre, if_neg hc]

theorem byDate_level3 (dates : List DateMeta) (y mo d : Nat) :
    dates.filterMap (fun m =>
      let name := RevisionHistoryShardByDate.get_full_sharded_name m
      if (padNum 4 y ++ '/' :: (padNum 2 mo ++ '/' :: (padNum 2 d ++ ['/']))).isPrefixOf
        name
      then some ((splitOnSlash name).getD 3 []) else none)
    = [] := by
  rw [List.filterMap_congr (g := fun _ => none)]
  · exact filterMap_none _
  · intro m _
    have hiff1 := sep_pre_iff (a := padNum 4 y) (b := padNum 4 m.year)
      (padNum 2 mo ++ '/' :: (padNum 2 d ++ ['/']))
      (padNum 2 m.month ++ '/' :: padNum 2 m.day)
      (padNum_not_slash _ _) (padNum_not_slash _ _)
    have hiff2 := sep_pre_iff (a := padNum 2 mo) (b := padNum 2 m.month)
      (padNum 2 d ++ ['/']) (padNum 2 m.day)
      (padNum_not_slash _ _) (padNum_not_slash _ _)
    have hpre : ¬ ((padNum 4 y ++ '/' :: (padNum 2 mo ++ '/'
        :: (padNum 2 d ++ ['/']))).isPrefixOf
        (RevisionHistoryShardByDate.get_full_sharded_name m) = true) := by
      intro hp
      obtain ⟨_, h2⟩ := hiff1.mp (List.isPrefixOf_iff_prefix.mp hp)
      obtain ⟨_, h4⟩ := hiff2.mp h2
      exact sep_pre_not (padNum_not_slash _ _) h4
    rw [if_neg hpre]

theorem byDateTree_calendar (cache : Swhid → Option DateMeta) (hist : List Swhid)
    (h : ∀ s ∈ hist, (cache s).isSome) :
    byDateTree cache hist = calendarTree (hist.filterMap cache) := by
  have hsub : ∀ pre : List Char, byDateSubdirs cache hist pre
      = dedupFrom [] ((hist.filterMap cache).filterMap (fun m =>
          let name := RevisionHistoryShardByDate.get_full_sharded_name m
          if pre.isPrefixOf name then some ((splitOnSlash name).getD (pre.count '/') [])
          else none)) := fun pre => by
    rw [byDateSubdirs_eq, byDateCandidates_all_cached _ _ _ _ h]
  have h0 : byDateSubdirs cache hist []
      = ((dedupFrom [] ((hist.filterMap cache).map (fun m => m.year))).map (padNum 4)) := by
    rw [hsub []]
    have hcnt : (([] : List Char).count '/') = 0 := rfl
    rw [hcnt, byDate_level0]
    rw [show (hist.filterMap cache).map (fun m => padNum 4 m.year)
        = ((hist.filterMap cache).map (fun m => m.year)).map (padNum 4) from by
      rw [List.map_map]; rfl]
    exact dedup_map_inj (padNum_inj 4) _
  have h1 : ∀ y : Nat, byDateSubdirs cache hist (padNum 4 y ++ ['/'])
      = (dedupFrom [] (((hist.filterMap cache).filter (fun m => m.year = y)).map
          (fun m => m.month))).map (padNum 2) := fun y => by
    rw [hsub _]
    have hcnt : ((padNum 4 y ++ ['/']).count '/') = 1 := by
      rw [List.count_append, List.count_eq_zero.mpr (padNum_not_slash _ _)]
      rfl
    rw [hcnt, byDate_level1]
    rw [show ((hist.filterMap cache).filter (fun m => m.year = y)).map
          (fun m => padNum 2 m.month)
        = (((hist.filterMap cache).filter (fun m => m.year = y)).map
            (fun m => m.month)).map (padNum 2) from by
      rw [List.map_map]; rfl]
    exact dedup_map_inj (padNum_inj 2) _
  have h2 : ∀ y mo : Nat,
      byDateSubdirs cache hist (padNum 4 y ++ '/' :: (padNum 2 mo ++ ['/']))
      = (dedupFrom [] (((hist.filterMap cache).filter
          (fun m => m.year = y ∧ m.month = mo)).map (fun m => m.day))).map
            (padNum 2) := fun y mo => by
    rw [hsub _]
    have hcnt : ((padNum 4 y ++ '/' :: (padNum 2 mo ++ ['/'])).count '/') = 2 := by
      rw [List.count_append, List.count_eq_zero.mpr (padNum_not_slash _ _),
        List.count_cons_self, List.count_append,
        List.count_eq_zero.mpr (padNum_not_slash _ _)]
      rfl
    rw [hcnt, byDate_level2]
    rw [show ((hist.filterMap cache).filter (fun m => m.year = y ∧ m.month = mo)).map
          (fun m => padNum 2 m.day)
        = (((hist.filterMap cache).filter (fun m => m.year = y ∧ m.month = mo)).map
            (fun m => m.day)).map (padNum 2) from by
      rw [List.map_map]; rfl]
    exact dedup_map_inj (padNum_inj 2) _
  unfold byDateTree calendarTree
  rw [h0, List.map_map]
  congr 1
  funext y0
  simp only [Function.comp]
  congr 1
  rw [h1 y0, List.map_map]
  congr 1
  funext mo0
  simp only [Function.comp]
  congr 1
  rw [h2 y0 mo0]

theorem byDate_no_status (cache : Swhid → Option DateMeta) (hist : List Swhid)
    (pre : List Char) (h : ∀ s ∈ hist, (cache s).isSome) :
    ∀ done todo, ByDateEntry.status done todo
      ∉ RevisionHistoryShardByDate.compute_entries cache hist pre := by
  intro done todo hmem
  unfold RevisionHistoryShardByDate.compute_entries at hmem
  dsimp only at hmem
  rw [byDateScan_statusDone] at hmem
  rw [if_pos (List.all_eq_true.mpr (fun s hs => h s hs))] at hmem
  rw [List.append_nil] at hmem
  obtain ⟨x, _, hx⟩ := List.mem_map.mp hmem
  exact absurd hx (by simp)

theorem byDate_status_mem (cache : Swhid → Option DateMeta) (hist : List Swhid)
    (pre : List Char) (h : ∃ s ∈ hist, cache s = none) :
    ByDateEntry.status ((hist.filter (fun s => (cache s).isSome)).length) hist.length
      ∈ RevisionHistoryShardByDate.compute_entries cache hist pre := by
  unfold RevisionHistoryShardByDate.compute_entries
  dsimp only
  rw [byDateScan_statusDone, byDateScan_nbEntries]
  obtain ⟨s, hs, hnone⟩ := h
  have hall : hist.all (fun s => (cache s).isSome) = false := by
    rw [List.all_eq_false]
    exact ⟨s, hs, by simp [hnone]⟩
  rw [hall]
  simp only [Bool.false_eq_true, if_false]
  exact List.mem_append_right _ (List.mem_singleton.mpr rfl)

/-! ### History sharding by hash (`RevisionHistoryShardByHash`)

Configuration: sharding depth `D` and prefix length `L`
(`self.fuse.conf["sharding"]`).  `Path(*parts)` joins its non-empty parts
with `/`.  The recursion of `fill_direntry_cache` stops where
`self.prefix.count("/")` reaches `D`; every reachable call satisfies
`depth = D - gas` for the explicit countdown argument `gas` used here (the
root call has `prefix = ""` and `gas = D`, and each child appends one
`<L hex chars>/` component to the prefix). -/

/-- `'/'.join` of path components (for the non-empty components this is
`str(Path(*parts))`). -/
def intercalateSlash : List (List Char) → List Char
  | [] => []
  | [p] => p
  | p :: rest => p ++ '/' :: intercalateSlash rest

/-- `str(Path(*parts))`: empty components are skipped by `pathlib`. -/
def joinPath (parts : List (List Char)) : List Char :=
  intercalateSlash (parts.filter (fun p => !p.isEmpty))

/-- `RevisionHistoryShardByHash.get_full_sharded_name`: for `D ≤ 0` the plain
SWHID string; otherwise the `D` successive length-`L` slices of the digest
followed by the full SWHID string, joined as a path. -/
def RevisionHistoryShardByHash.get_full_sharded_name (D L : Nat) (s : Swhid) :
    List Char :=
  if D = 0 then swhidStr s
  else joinPath ((List.range D).map
    (fun i => (s.objectId.drop (i * L)).take L) ++ [swhidStr s])

/-- A node of the materialized by-hash tree: a leaf symlink (named
`str(swhid)`, pointing at `archive/<swhid>`), or an intermediate sharded
directory with its children. -/
inductive HashEntry where
  | link (s : Swhid)
  | dir (name : List Char) (children : List HashEntry)
deriving Repr

/-- The displayed name of a by-hash child. -/
def hashEntryName : HashEntry → List Char
  | .link s => swhidStr s
  | .dir name _ => name

/-- The grouping key of `fill_direntry_cache`:
`name[prefix_len : prefix_len + sharding_length]` of the full sharded name. -/
def hashKey (D L : Nat) (pre : List Char) (s : Swhid) : List Char :=
  ((RevisionHistoryShardByHash.get_full_sharded_name D L s).drop pre.length).take L

/-- `RevisionHistoryShardByHash.fill_direntry_cache` with the directory-entry
cache writes made explicit: returns the `(node prefix, children)` pairs
passed to `cache.direntry.set`, in execution order, together with the
computed children of the current node.  `gas = D - depth` counts the
remaining levels (the source compares `self.prefix.count("/")` with the
configured depth). -/
def fillT (D L : Nat) : Nat → List Char → List Swhid →
    List (List Char × List HashEntry) × List HashEntry
  | 0, pre, swhids =>
    let children := swhids.map HashEntry.link
    ([(pre, children)], children)
  | gas + 1, pre, swhids =>
    let buckets := groupByKey (hashKey D L pre) swhids
    let results := buckets.map (fun b =>
      let child := fillT D L gas (pre ++ b.1 ++ ['/']) b.2
      (child.1, HashEntry.dir b.1 child.2))
    ((results.map Prod.fst).flatten ++ [(pre, results.map Prod.snd)],
      results.map Prod.snd)

/-- The root `fill_direntry_cache(history)` call made by
`RevisionHistoryShardByHash.compute_entries` on the `by-hash` node itself
(whose `prefix` is `""`; its `hash_prefix` filter keeps the whole history). -/
def RevisionHistoryShardByHash.fill_direntry_cache (D L : Nat)
    (history : List Swhid) : List (List Char × List HashEntry) × List HashEntry :=
  fillT D L D [] history

mutual

def leavesOf : HashEntry → List (List (List Char) × Swhid)
  | .link s => [([], s)]
  | .dir name children => (leavesList children).map (fun p => (name :: p.1, p.2))

def leavesList : List HashEntry → List (List (List Char) × Swhid)
  | [] => []
  | e :: es => leavesOf e ++ leavesList es

end

/-- The digest slice used at depth `d`, `basename[d*L : (d+1)*L]`. -/
def segAt (L d : Nat) (s : Swhid) : List Char :=
  (s.objectId.drop (d * L)).take L

/-- The ancestor-directory names of a leaf reached from depth `d` through
`cnt` further levels. -/
def segsFrom (L d cnt : Nat) (s : Swhid) : List (List Char) :=
  (List.range cnt).map (fun i => segAt L (d + i) s)

theorem swhidStr_ne_nil (s : Swhid) : swhidStr s ≠ [] := by
  simp [swhidStr, strL]

theorem leavesList_append (l₁ l₂ : List HashEntry) :
    leavesList (l₁ ++ l₂) = leavesList l₁ ++ leavesList l₂ := by
  induction l₁ with
  | nil => simp [leavesList]
  | cons e es ih => simp [leavesList, ih, List.append_assoc]

theorem leavesList_eq_flatten (l : List HashEntry) :
    leavesList l = (l.map leavesOf).flatten := by
  induction l with
  | nil => rfl
  | cons e es ih => simp [leavesList, ih]

theorem leavesList_links (swhids : List Swhid) :
    leavesList (swhids.map HashEntry.link) = swhids.map (fun s => ([], s)) := by
  induction swhids with
  | nil => rfl
  | cons s rest ih => simp [leavesList, leavesOf, ih]

theorem segsFrom_zero (L d : Nat) (s : Swhid) : segsFrom L d 0 s = [] := rfl

theorem segsFrom_succ (L d cnt : Nat) (s : Swhid) :
    segsFrom L d (cnt + 1) s = segAt L d s :: segsFrom L (d + 1) cnt s := by
  unfold segsFrom
  rw [List.range_succ_eq_map, List.map_cons, List.map_map]
  have h1 : (fun i => segAt L (d + i) s) ∘ Nat.succ
      = fun i => segAt L (d + 1 + i) s := by
    funext i
    simp only [Function.comp]
    rw [show d + (i + 1) = d + 1 + i from by omega]
  rw [h1]
  simp

theorem flatten_perm_of_forall {f g : α → List β} {l : List α}
    (h : ∀ x ∈ l, List.Perm (f x) (g x)) :
    List.Perm (l.map f).flatten (l.map g).flatten := by
  induction l with
  | nil => simp
  | cons x xs ih =>
    simp only [List.map_cons, List.flatten_cons]
    exact List.Perm.append (h x (List.mem_cons_self _ _))
      (ih (fun y hy => h y (List.mem_cons_of_mem _ hy)))

theorem segAt_length {n : Nat} (L d : Nat) (s : Swhid) (hn : s.objectId.length = n)
    (h : (d + 1) * L ≤ n) : (segAt L d s).length = L := by
  simp only [segAt, List.length_take, List.length_drop, hn]
  have : (d + 1) * L = d * L + L := by ring
  omega

theorem interSlash_cons {rest : List (List Char)} (p : List Char) (h : rest ≠ []) :
    intercalateSlash (p :: rest) = p ++ '/' :: intercalateSlash rest := by
  cases rest with
  | nil => exact absurd rfl h
  | cons q t => rfl

theorem interSlash_drop (L : Nat) :
    ∀ (d : Nat) (parts : List (List Char)),
      (∀ p ∈ parts.take d, p.length = L) →
      (intercalateSlash parts).drop (d * (L + 1)) = intercalateSlash (parts.drop d) := by
  intro d
  induction d with
  | zero => intro parts _; simp
  | succ d ih =>
    intro parts hp
    cases parts with
    | nil => simp [intercalateSlash]
    | cons p rest =>
      have hpl : p.length = L := hp p (by
        rw [List.take_succ_cons]
        exact List.mem_cons_self _ _)
      cases rest with
      | nil =>
        show p.drop ((d + 1) * (L + 1)) = intercalateSlash (List.drop (d + 1) [p])
        have h1 : List.drop (d + 1) [p] = [] := by
          apply List.drop_eq_nil_of_le
          simp
        rw [h1]
        have h2 : p.length ≤ (d + 1) * (L + 1) := by
          rw [Nat.succ_mul, hpl]
          omega
        rw [List.drop_eq_nil_of_le h2]
        rfl
      | cons q t =>
        rw [interSlash_cons p (by simp)]
        rw [show p ++ '/' :: intercalateSlash (q :: t)
            = (p ++ ['/']) ++ intercalateSlash (q :: t) from by
          rw [List.append_assoc]; rfl]
        rw [Nat.succ_mul, Nat.add_comm (d * (L + 1)) (L + 1)]
        rw [← List.drop_drop]
        rw [List.drop_left' (by simp [hpl])]
        rw [List.drop_succ_cons]
        refine Eq.trans (ih (q :: t) ?_) rfl
        intro x hx
        refine hp x ?_
        rw [List.take_succ_cons]
        exact List.mem_cons_of_mem _ hx

theorem shardName_keyFact {n : Nat} (D L : Nat) (hL : 0 < L) (hDL : D * L ≤ n)
    (d : Nat) (hd : d < D) (s : Swhid) (hn : s.objectId.length = n) :
    ((RevisionHistoryShardByHash.get_full_sharded_name D L s).drop (d * (L + 1))).take L
      = segAt L d s := by
  have hseglen : ∀ i, i < D → (segAt L i s).length = L := by
    intro i hi
    refine segAt_length L i s hn ?_
    calc (i + 1) * L ≤ D * L := Nat.mul_le_mul_right L (by omega)
      _ ≤ n := hDL
  have hD0 : ¬ (D = 0) := by omega
  unfold RevisionHistoryShardByHash.get_full_sharded_name
  rw [if_neg hD0]
  unfold joinPath
  have hall : ∀ p ∈ (List.range D).map
      (fun i => (s.objectId.drop (i * L)).take L) ++ [swhidStr s],
      (!p.isEmpty) = true := by
    intro p hp
    rcases List.mem_append.mp hp with h | h
    · obtain ⟨i, hi, rfl⟩ := List.mem_map.mp h
      have hi' : i < D := List.mem_range.mp hi
      have := hseglen i hi'
      simp only [segAt] at this
      simp only [Bool.not_eq_true', List.isEmpty_eq_false]
      intro hnil
      rw [hnil] at this
      simp at this
      omega
    · rw [List.mem_singleton.mp h]
      simp only [Bool.not_eq_true', List.isEmpty_eq_false]
      exact swhidStr_ne_nil s
  rw [List.filter_eq_self.mpr hall]
  have hlenmap : ((List.range D).map
      (fun i => (s.objectId.drop (i * L)).take L)).length = D := by simp
  have htake : ∀ p ∈ ((List.range D).map
      (fun i => (s.objectId.drop (i * L)).take L) ++ [swhidStr s]).take d,
      p.length = L := by
    intro p hp
    rw [List.take_append_of_le_length (by rw [hlenmap]; omega)] at hp
    obtain ⟨i, hi, rfl⟩ := List.mem_map.mp (List.mem_of_mem_take hp)
    have hi' : i < D := List.mem_range.mp hi
    have := hseglen i hi'
    simpa [segAt] using this
  rw [interSlash_drop L d _ htake]
  have hdrop : ((List.range D).map
      (fun i => (s.objectId.drop (i * L)).take L) ++ [swhidStr s]).drop d
      = segAt L d s
        :: (((List.range D).map
            (fun i => (s.objectId.drop (i * L)).take L)).drop (d + 1)
          ++ [swhidStr s]) := by
    rw [List.drop_append_of_le_length (by rw [hlenmap]; omega)]
    rw [List.drop_eq_getElem_cons (by rw [hlenmap]; exact hd)]
    rw [List.cons_append]
    congr 1
    rw [List.getElem_map, List.getElem_range]
    rfl
  rw [hdrop, interSlash_cons _ (by simp)]
  exact List.take_left' (hseglen d hd)

theorem groupByKey_ne_nil [DecidableEq β] (key : α → β) (l : List α) :
    ∀ p ∈ groupByKey key l, p.2 ≠ [] := by
  have H : ∀ (n : Nat) (l : List α), l.length = n →
      ∀ p ∈ groupByKey key l, p.2 ≠ [] := by
    intro n
    induction n using Nat.strong_induction_on with
    | _ n ih =>
      intro l hn p hp
      cases l with
      | nil => simp [groupByKey] at hp
      | cons x xs =>
        rw [groupByKey] at hp
        rcases List.mem_cons.mp hp with h | h
        · rw [h]; simp
        · have hlt : (xs.filter (fun a => ¬ (key a = key x))).length < n := by
            have := List.length_filter_le (fun a => decide (¬ (key a = key x))) xs
            simp only [List.length_cons] at hn
            omega
          exact ih _ hlt _ rfl p h
  exact H l.length l rfl

theorem fillT_succ_children (D L gas : Nat) (pre : List Char) (swhids : List Swhid) :
    (fillT D L (gas + 1) pre swhids).2
      = (groupByKey (hashKey D L pre) swhids).map
          (fun b => HashEntry.dir b.1 (fillT D L gas (pre ++ b.1 ++ ['/']) b.2).2) := by
  rw [fillT]
  dsimp only
  rw [List.map_map]
  rfl

theorem fillT_leaves (D L n : Nat) (hL : 0 < L) (hDL : D * L ≤ n) :
    ∀ (gas : Nat) (pre : List Char) (swhids : List Swhid), gas ≤ D →
      pre.length = (D - gas) * (L + 1) →
      (∀ s ∈ swhids, s.objectId.length = n) →
      List.Perm (leavesList (fillT D L gas pre swhids).2)
        (swhids.map (fun s => (segsFrom L (D - gas) gas s, s))) := by
  intro gas
  induction gas with
  | zero =>
    intro pre swhids _ _ _
    show List.Perm (leavesList (swhids.map HashEntry.link)) _
    rw [leavesList_links]
    exact List.Perm.refl _
  | succ gas ih =>
    intro pre swhids hgas hpre hlen
    set d := D - (gas + 1) with hd
    have hdlt : d < D := by omega
    have hDgas : D - gas = d + 1 := by omega
    have hseglen : ∀ s : Swhid, s.objectId.length = n → (segAt L d s).length = L := by
      intro s hs
      refine segAt_length L d s hs ?_
      calc (d + 1) * L ≤ D * L := Nat.mul_le_mul_right L (by omega)
        _ ≤ n := hDL
    rw [fillT_succ_children, leavesList_eq_flatten, List.map_map]
    have hstep : ∀ b ∈ groupByKey (hashKey D L pre) swhids,
        List.Perm
          ((leavesOf ∘ fun b =>
            HashEntry.dir b.1 (fillT D L gas (pre ++ b.1 ++ ['/']) b.2).2) b)
          (b.2.map (fun s => (segsFrom L d (gas + 1) s, s))) := by
      rintro ⟨k, grp⟩ hb
      simp only [Function.comp, leavesOf]
      have hmemfact := groupByKey_mem (hashKey D L pre) swhids k grp hb
      have hgrpne := groupByKey_ne_nil (hashKey D L pre) swhids (k, grp) hb
      obtain ⟨s₀, hs₀⟩ := List.exists_mem_of_ne_nil grp hgrpne
      have hs₀len : s₀.objectId.length = n := hlen s₀ (hmemfact s₀ hs₀).1
      have hkey_eq_seg : ∀ s ∈ grp, k = segAt L d s := by
        intro s hs
        have hks : hashKey D L pre s = k := (hmemfact s hs).2
        have hslen : s.objectId.length = n := hlen s (hmemfact s hs).1
        rw [← hks]
        unfold hashKey
        rw [hpre]
        exact shardName_keyFact D L hL hDL d hdlt s hslen
      have hklen : k.length = L := by
        rw [hkey_eq_seg s₀ hs₀]
        exact hseglen s₀ hs₀len
      have hpre' : (pre ++ k ++ ['/']).length = (D - gas) * (L + 1) := by
        rw [List.length_append, List.length_append, hpre, hklen, hDgas,
          Nat.succ_mul, List.length_singleton]
        omega
      have ihb := ih (pre ++ k ++ ['/']) grp (by omega) hpre'
        (fun s hs => hlen s (hmemfact s hs).1)
      refine List.Perm.trans (ihb.map (fun p => (k :: p.1, p.2))) ?_
      rw [List.map_map]
      have hptwise : ∀ s ∈ grp,
          ((fun p => ((k :: p.1 : List (List Char)), p.2))
            ∘ fun s => (segsFrom L (D - gas) gas s, s)) s
          = (fun s => (segsFrom L d (gas + 1) s, s)) s := by
        intro s hs
        simp only [Function.comp]
        rw [segsFrom_succ, hDgas, hkey_eq_seg s hs]
      rw [List.map_congr_left hptwise]
    refine List.Perm.trans (flatten_perm_of_forall hstep) ?_
    have heq : (groupByKey (hashKey D L pre) swhids).map
          (fun b => b.2.map (fun s => (segsFrom L d (gas + 1) s, s)))
        = ((groupByKey (hashKey D L pre) swhids).map Prod.snd).map
            (List.map (fun s => (segsFrom L d (gas + 1) s, s))) := by
      rw [List.map_map]
      rfl
    rw [heq, ← List.map_flatten]
    exact (groupByKey_flatten_perm (hashKey D L pre) swhids).map
      (fun s => (segsFrom L d (gas + 1) s, s))

/-! ### History sharding by page (`RevisionHistoryShardByPage`)

The accumulation loop of `fill_direntry_cache` is embedded as `goPage`: the
state is the running index `idx`, the current page (its number and the
children collected so far — `page`, `page_number`, `page_children` in the
source, with `page_number` starting at `-1` so the first created page gets
number `0`), and the pages flushed so far (each flush is also a
`cache.direntry.set(page, page_children)` write).  A page directory is named
`PAGE_FMT.format(page_number)`. -/

/-- `RevisionHistoryShardByPage.PAGE_SIZE`. -/
def PAGE_SIZE : Nat := 10000

/-- `RevisionHistoryShardByPage.PAGE_FMT`: `"{page_number:03d}"`. -/
def PAGE_FMT (pageNumber : Nat) : List Char := padNum 3 pageNumber

/-- The loop of `RevisionHistoryShardByPage.fill_direntry_cache`; returns the
pages (page number, members) in flush order. -/
def goPage (ps : Nat) :
    Nat → Option (Nat × List Swhid) → List (Nat × List Swhid) → List Swhid →
      List (Nat × List Swhid)
  | _, none, pages, [] => pages
  | _, some c, pages, [] => pages ++ [c]
  | idx, cur, pages, s :: rest =>
    if idx % ps = 0 then
      match cur with
      | none => goPage ps (idx + 1) (some (0, [s])) pages rest
      | some (m, cs) => goPage ps (idx + 1) (some (m + 1, [s])) (pages ++ [(m, cs)]) rest
    else
      match cur with
      | some (m, cs) => goPage ps (idx + 1) (some (m, cs ++ [s])) pages rest
      | none => goPage ps (idx + 1) none pages rest

/-- `RevisionHistoryShardByPage.fill_direntry_cache(swhids)`: the list of
pages, in order. -/
def RevisionHistoryShardByPage.fill_direntry_cache (swhids : List Swhid) :
    List (Nat × List Swhid) :=
  goPage PAGE_SIZE 0 none [] swhids

/-- Consecutive chunks of `ps` elements (the last one possibly shorter). -/
def chunks (ps : Nat) : List α → List (List α)
  | [] => []
  | x :: xs => (x :: xs.take (ps - 1)) :: chunks ps (xs.drop (ps - 1))
termination_by l => l.length
decreasing_by
  simp only [List.length_cons]
  have := List.length_drop (ps - 1) xs
  omega

theorem chunks_cons (ps : Nat) (x : α) (xs : List α) :
    chunks ps (x :: xs) = (x :: xs.take (ps - 1)) :: chunks ps (xs.drop (ps - 1)) := by
  rw [chunks]

theorem goPage_spec (ps : Nat) (hps : 0 < ps) : ∀ rest : List Swhid,
    (∀ idx pn cs pages, idx % ps ≠ 0 →
      goPage ps idx (some (pn, cs)) pages rest
        = pages ++ (pn, cs ++ rest.take (ps - idx % ps))
            :: List.enumFrom (pn + 1) (chunks ps (rest.drop (ps - idx % ps))))
    ∧ (∀ idx pn cs pages, idx % ps = 0 →
      goPage ps idx (some (pn, cs)) pages rest
        = (pages ++ [(pn, cs)]) ++ List.enumFrom (pn + 1) (chunks ps rest))
    ∧ (∀ idx pages, idx % ps = 0 →
      goPage ps idx none pages rest = pages ++ List.enumFrom 0 (chunks ps rest)) := by
  intro rest
  induction rest with
  | nil =>
    refine ⟨?_, ?_, ?_⟩
    · intro idx pn cs pages _
      simp [goPage, chunks]
    · intro idx pn cs pages _
      simp [goPage, chunks]
    · intro idx pages _
      simp [goPage, chunks]
  | cons s r' ih =>
    obtain ⟨ih1, ih2, ih3⟩ := ih
    refine ⟨?_, ?_, ?_⟩
    · intro idx pn cs pages h
      simp only [goPage]
      rw [if_neg h]
      show goPage ps (idx + 1) (some (pn, cs ++ [s])) pages r' = _
      have hrlt : idx % ps < ps := Nat.mod_lt idx hps
      rcases Nat.lt_or_ge (idx % ps + 1) ps with hlt | hge
      · have hmod : (idx + 1) % ps = idx % ps + 1 := by
          rw [Nat.add_mod, Nat.mod_eq_of_lt (show (1 : Nat) < ps by omega)]
          exact Nat.mod_eq_of_lt hlt
        have hne : (idx + 1) % ps ≠ 0 := by omega
        rw [ih1 (idx + 1) pn (cs ++ [s]) pages hne, hmod]
        rw [show ps - idx % ps = (ps - (idx % ps + 1)) + 1 from by omega]
        rw [List.take_succ_cons, List.drop_succ_cons]
        simp [List.append_assoc]
      · have hreq : idx % ps + 1 = ps := by omega
        have hmod : (idx + 1) % ps = 0 := by
          rw [Nat.add_mod, Nat.mod_eq_of_lt (show (1 : Nat) < ps by omega), hreq,
            Nat.mod_self]
        rw [ih2 (idx + 1) pn (cs ++ [s]) pages hmod]
        rw [show ps - idx % ps = 1 from by omega]
        rw [List.take_succ_cons, List.drop_succ_cons, List.take_zero, List.drop_zero]
        simp [List.append_assoc]
    · intro idx pn cs pages h
      simp only [goPage]
      rw [if_pos h]
      show goPage ps (idx + 1) (some (pn + 1, [s])) (pages ++ [(pn, cs)]) r' = _
      have h1p : (idx + 1) % ps = 1 % ps := by
        rw [Nat.add_mod, h, Nat.zero_add, Nat.mod_mod_of_dvd 1 dvd_rfl]
      rcases Nat.lt_or_ge 1 ps with hgt | hle
      · have hmod : (idx + 1) % ps = 1 := by rw [h1p]; exact Nat.mod_eq_of_lt hgt
        have hne : (idx + 1) % ps ≠ 0 := by omega
        rw [ih1 (idx + 1) (pn + 1) [s] (pages ++ [(pn, cs)]) hne, hmod]
        rw [chunks_cons, List.enumFrom_cons]
        simp [List.append_assoc]
      · have hps1 : ps = 1 := by omega
        have hmod : (idx + 1) % ps = 0 := by rw [h1p, hps1]
        rw [ih2 (idx + 1) (pn + 1) [s] (pages ++ [(pn, cs)]) hmod]
        rw [chunks_cons, List.enumFrom_cons]
        simp [hps1, List.append_assoc]
    · intro idx pages h
      simp only [goPage]
      rw [if_pos h]
      show goPage ps (idx + 1) (some (0, [s])) pages r' = _
      have h1p : (idx + 1) % ps = 1 % ps := by
        rw [Nat.add_mod, h, Nat.zero_add, Nat.mod_mod_of_dvd 1 dvd_rfl]
      rcases Nat.lt_or_ge 1 ps with hgt | hle
      · have hmod : (idx + 1) % ps = 1 := by rw [h1p]; exact Nat.mod_eq_of_lt hgt
        have hne : (idx + 1) % ps ≠ 0 := by omega
        rw [ih1 (idx + 1) 0 [s] pages hne, hmod]
        rw [chunks_cons, List.enumFrom_cons]
        simp [List.append_assoc]
      · have hps1 : ps = 1 := by omega
        have hmod : (idx + 1) % ps = 0 := by rw [h1p, hps1]
        rw [ih2 (idx + 1) 0 [s] pages hmod]
        rw [chunks_cons, List.enumFrom_cons]
        simp [hps1, List.append_assoc]

theorem fill_pages_eq_chunks (swhids : List Swhid) :
    RevisionHistoryShardByPage.fill_direntry_cache swhids
      = List.enumFrom 0 (chunks PAGE_SIZE swhids) := by
  unfold RevisionHistoryShardByPage.fill_direntry_cache
  have h := (goPage_spec PAGE_SIZE (by norm_num [PAGE_SIZE]) swhids).2.2 0 []
    (by simp)
  simpa using h

theorem chunks_eq_nil_iff (ps : Nat) (l : List α) : chunks ps l = [] ↔ l = [] := by
  cases l with
  | nil => simp [chunks]
  | cons x xs => rw [chunks_cons]; simp

theorem chunks_flatten (ps : Nat) (_hps : 0 < ps) (l : List α) :
    (chunks ps l).flatten = l := by
  have H : ∀ (n : Nat) (l : List α), l.length = n → (chunks ps l).flatten = l := by
    intro n
    induction n using Nat.strong_induction_on with
    | _ n ih =>
      intro l hn
      cases l with
      | nil => simp [chunks]
      | cons x xs =>
        rw [chunks_cons, List.flatten_cons]
        have hlt : (xs.drop (ps - 1)).length < n := by
          rw [List.length_drop]
          simp only [List.length_cons] at hn
          omega
        rw [ih _ hlt _ rfl]
        rw [List.cons_append, List.take_append_drop]
  exact H l.length l rfl

theorem chunks_bounds (ps : Nat) (hps : 0 < ps) (l : List α) :
    ∀ c ∈ chunks ps l, 0 < c.length ∧ c.length ≤ ps := by
  have H : ∀ (n : Nat) (l : List α), l.length = n →
      ∀ c ∈ chunks ps l, 0 < c.length ∧ c.length ≤ ps := by
    intro n
    induction n using Nat.strong_induction_on with
    | _ n ih =>
      intro l hn c hc
      cases l with
      | nil => simp [chunks] at hc
      | cons x xs =>
        rw [chunks_cons] at hc
        rcases List.mem_cons.mp hc with h | h
        · subst h
          simp only [List.length_cons, List.length_take]
          omega
        · have hlt : (xs.drop (ps - 1)).length < n := by
            rw [List.length_drop]
            simp only [List.length_cons] at hn
            omega
          exact ih _ hlt _ rfl c h
  exact H l.length l rfl

theorem chunks_dropLast_length (ps : Nat) (hps : 0 < ps) (l : List α) :
    ∀ c ∈ (chunks ps l).dropLast, c.length = ps := by
  have H : ∀ (n : Nat) (l : List α), l.length = n →
      ∀ c ∈ (chunks ps l).dropLast, c.length = ps := by
    intro n
    induction n using Nat.strong_induction_on with
    | _ n ih =>
      intro l hn c hc
      cases l with
      | nil => simp [chunks] at hc
      | cons x xs =>
        rw [chunks_cons] at hc
        cases hrest : chunks ps (xs.drop (ps - 1)) with
        | nil => rw [hrest] at hc; simp at hc
        | cons c₀ cr =>
          rw [hrest, List.dropLast_cons₂] at hc
          have hlt : (xs.drop (ps - 1)).length < n := by
            rw [List.length_drop]
            simp only [List.length_cons] at hn
            omega
          rcases List.mem_cons.mp hc with h | h
          · subst h
            have hne : xs.drop (ps - 1) ≠ [] := by
              intro hnil
              rw [hnil] at hrest
              simp [chunks] at hrest
            have hxs : ps - 1 < xs.length := by
              by_contra hcon
              push_neg at hcon
              exact hne (List.drop_eq_nil_of_le hcon)
            simp only [List.length_cons, List.length_take]
            omega
          · rw [← hrest] at h
            exact ih _ hlt _ rfl c h
  exact H l.length l rfl

/-! ### Eager materialization traces (by-hash and by-page)

`compute_entries` of both sharded views first runs `fill_direntry_cache`,
which performs every `cache.direntry.set` write (children first, the node's
own complete children list last), and only then yields the children one by
one.  The traces below record those events in execution order. -/

/-- An event of a by-hash `compute_entries` execution. -/
inductive HashEvent where
  | set (nodePre : List Char) (children : List HashEntry)
  | yieldEntry (e : HashEntry)

/-- The event trace of `RevisionHistoryShardByHash.compute_entries` on the
root node: all `cache.direntry.set` writes made by `fill_direntry_cache`, in
execution order, followed by the yields of the computed children. -/
def RevisionHistoryShardByHash.compute_entries_trace (D L : Nat)
    (history : List Swhid) : List HashEvent :=
  let r := RevisionHistoryShardByHash.fill_direntry_cache D L history
  r.1.map (fun p => HashEvent.set p.1 p.2) ++ r.2.map HashEvent.yieldEntry

/-- An event of a by-page `compute_entries` execution. -/
inductive PageEvent where
  | setPage (pageNumber : Nat) (children : List Swhid)
  | setSelf (pages : List (Nat × List Swhid))
  | yieldEntry (page : Nat × List Swhid)

/-- The event trace of `RevisionHistoryShardByPage.compute_entries`: each
page's `cache.direntry.set(page, page_children)` happens when the page is
flushed (in page order), then the node's own children list is stored
(`cache.direntry.set(self, pages)`), and only then are the pages yielded. -/
def RevisionHistoryShardByPage.compute_entries_trace (history : List Swhid) :
    List PageEvent :=
  let pages := RevisionHistoryShardByPage.fill_direntry_cache history
  pages.map (fun p => PageEvent.setPage p.1 p.2) ++ [PageEvent.setSelf pages]
    ++ pages.map PageEvent.yieldEntry

theorem fillT_self_set (D L gas : Nat) (pre : List Char) (swhids : List Swhid) :
    (pre, (fillT D L gas pre swhids).2) ∈ (fillT D L gas pre swhids).1 := by
  cases gas with
  | zero => simp [fillT]
  | succ gas => simp [fillT]

theorem segsFrom_flatten (L : Nat) (s : Swhid) :
    ∀ (cnt d : Nat), (segsFrom L d cnt s).flatten
      = (s.objectId.drop (d * L)).take (cnt * L) := by
  intro cnt
  induction cnt with
  | zero => intro d; simp [segsFrom_zero]
  | succ cnt ih =>
    intro d
    rw [segsFrom_succ, List.flatten_cons, ih (d + 1)]
    have hdrop : s.objectId.drop ((d + 1) * L) = (s.objectId.drop (d * L)).drop L := by
      rw [List.drop_drop]
      congr 1
      ring
    rw [hdrop]
    rw [show (cnt + 1) * L = L + cnt * L from by ring]
    rw [List.take_add]
    rfl

/-! ### Claim theorems -/

/-- C1: the claim states that symlink permission bits yield a Symlink child
regardless of the target kind, including a blob target.  The code checks
`swhid.object_type == CONTENT` first, so a blob-target entry carrying
`DentryPerms.symlink` permissions is classified as a regular `Content` file
child — its permission bits are never consulted.  Evaluating
`Directory.compute_entries` at such an entry exhibits the divergence: the
result is a `content` child (with the raw symlink mode), not a `symlink`
child carrying the blob bytes. -/
theorem directory_blob_symlink_perms_yields_file_child :
    Directory.compute_entries (fun _ => strL "target-text") (strL "..")
      [⟨strL "link", ⟨ObjectType.cnt, strL "ab"⟩, DentryPerms.symlink⟩]
    = Except.ok [TreeChild.content (strL "link") DentryPerms.symlink
        ⟨ObjectType.cnt, strL "ab"⟩
        ⟨strL "link", ⟨ObjectType.cnt, strL "ab"⟩, DentryPerms.symlink⟩]
    ∧ (∀ t, TreeChild.symlink (strL "link") t
        ∉ [TreeChild.content (strL "link") DentryPerms.symlink
            ⟨ObjectType.cnt, strL "ab"⟩
            ⟨strL "link", ⟨ObjectType.cnt, strL "ab"⟩, DentryPerms.symlink⟩]) := by
  constructor
  · rfl
  · intro t h
    simp at h

/-- C6: every tree entry whose target is a directory is classified as a
`Directory` child whose mode is the canonical `EntryMode.RDONLY_DIR`
constant; the entry's recorded permission bits are never surfaced — the
classification result is invariant under changing them. -/
theorem directory_child_mode_canonical (blob : Swhid → List Char)
    (rootPath : List Char) (metadata : List DirEntryMeta) (entry : DirEntryMeta)
    (l : List TreeChild) (htyp : entry.target.objectType = ObjectType.dir) :
    computeDirChild blob rootPath entry
      = Except.ok (TreeChild.directory entry.name EntryMode.RDONLY_DIR entry.target)
    ∧ (entry ∈ metadata → Directory.compute_entries blob rootPath metadata = .ok l →
        TreeChild.directory entry.name EntryMode.RDONLY_DIR entry.target ∈ l)
    ∧ (∀ p, computeDirChild blob rootPath { entry with perms := p }
        = computeDirChild blob rootPath entry) := by
  refine ⟨?_, ?_, ?_⟩
  · simp [computeDirChild, htyp]
  · intro hmem hok
    refine exceptMap_ok_mem hok hmem ?_
    simp [computeDirChild, htyp]
  · intro p
    simp [computeDirChild, htyp]

/-- C7: a tree entry whose target kind is neither blob, tree, nor commit and
whose permissions do not classify it as a symlink makes
`Directory.compute_entries` fail with the `ValueError` of line 121 — the
listing as a whole is an error, the entry is not silently skipped. -/
theorem directory_unknown_kind_fatal (blob : Swhid → List Char)
    (rootPath : List Char) (metadata : List DirEntryMeta) (entry : DirEntryMeta)
    (hmem : entry ∈ metadata)
    (htyp : entry.target.objectType = ObjectType.rel
      ∨ entry.target.objectType = ObjectType.snp)
    (hperm : entry.perms ≠ DentryPerms.symlink) :
    ∃ msg, Directory.compute_entries blob rootPath metadata = Except.error msg := by
  have herr : computeDirChild blob rootPath entry
      = Except.error (strL "Unknown directory entry type: \x7bswhid.object_type\x7d") := by
    rcases htyp with h | h <;> simp [computeDirChild, h, hperm]
  exact exceptMap_error_of_mem hmem herr

/-- C5: a release's `root` entry is present exactly when transitively
following target references (release → release, release → revision → tree,
release → tree) reaches a tree: every computed `root` corresponds to a
resolution chain; every finite chain (shorter than the available recursion
depth) produces the `root` symlink to the final tree's identifier under
`archive/`; and a chain ending in a blob never yields a `root` entry,
whatever the recursion depth. -/
theorem release_root_resolution (getMeta : Swhid → ObjMeta) (fuel : Nat)
    (rootPath : List Char) (rel : Swhid) :
    (∀ d, Release.find_root_directory getMeta fuel (getMeta rel).target = some d →
        ∃ k, ResolvesToDirN getMeta k (getMeta rel).target d)
    ∧ (∀ k d, ResolvesToDirN getMeta k (getMeta rel).target d → k < fuel →
        Release.find_root_directory getMeta fuel (getMeta rel).target = some d)
    ∧ (EndsInBlob getMeta (getMeta rel).target →
        Release.find_root_directory getMeta fuel (getMeta rel).target = none)
    ∧ (∀ d, Release.find_root_directory getMeta fuel (getMeta rel).target = some d →
        RelEntry.symlink (strL "root")
            (pathJoin rootPath (strL "archive/" ++ swhidStr d))
          ∈ Release.compute_entries getMeta fuel rootPath rel)
    ∧ (Release.find_root_directory getMeta fuel (getMeta rel).target = none →
        ∀ t, RelEntry.symlink (strL "root") t
          ∉ Release.compute_entries getMeta fuel rootPath rel) := by
  refine ⟨?_, ?_, ?_, ?_, ?_⟩
  · intro d h
    exact find_root_sound getMeta fuel _ d h
  · intro k d h hk
    exact find_root_complete getMeta h fuel hk
  · intro h
    exact find_root_blob_none getMeta h fuel
  · intro d h
    unfold Release.compute_entries
    dsimp only
    rw [h]
    exact List.mem_append_right _ (List.mem_singleton.mpr rfl)
  · intro h t hmem
    unfold Release.compute_entries at hmem
    dsimp only at hmem
    rw [h] at hmem
    rw [List.append_nil] at hmem
    rcases List.mem_cons.mp hmem with hc | hmem
    · injection hc with h1 h2
      exact absurd h1 (by decide)
    rcases List.mem_cons.mp hmem with hc | hmem
    · injection hc with h1 h2
      exact absurd h1 (by decide)
    rcases List.mem_cons.mp hmem with hc | hmem
    · simp at hc
    · simp at hmem

/-- C8: a snapshot listing yields exactly one symlink per named branch, each
named by the `quote_plus` percent-encoding of the branch name and targeting
`archive/<resolved identifier>`; in particular a branch named `feature/x` is
exposed under the name `feature%2Fx`. -/
theorem snapshot_branches_percent_encoded (rootPath : List Char)
    (metadata : List BranchMeta) :
    (Snapshot.compute_entries rootPath metadata).length = metadata.length
    ∧ (∀ b ∈ metadata,
        SnapEntry.symlink (quotePlus b.name)
            (pathJoin rootPath (strL "archive/" ++ swhidStr b.target))
          ∈ Snapshot.compute_entries rootPath metadata)
    ∧ quotePlus (asciiBytes "feature/x") = strL "feature%2Fx" := by
  refine ⟨?_, ?_, ?_⟩
  · simp [Snapshot.compute_entries]
  · intro b hb
    unfold Snapshot.compute_entries
    exact List.mem_map_of_mem _ hb
  · decide

/-- C10: at every by-date shard prefix (any nesting depth), while at least
one commit of the history has uncached metadata, the listing contains a
`.status` file whose `todo` is the length of the whole history sequence and
whose `done` counts the cached commits of the whole sequence, regardless of
whether their dates fall under the shard's prefix. -/
theorem byDate_status_counts_whole_history (cache : Swhid → Option DateMeta)
    (history : List Swhid) (pre : List Char)
    (h : ∃ s ∈ history, cache s = none) :
    ByDateEntry.status ((history.filter (fun s => (cache s).isSome)).length)
        history.length
      ∈ RevisionHistoryShardByDate.compute_entries cache history pre
    ∧ (history.filter (fun s => (cache s).isSome)).length ≤ history.length := by
  exact ⟨byDate_status_mem cache history pre h, List.length_filter_le _ _⟩

/-- C4: while some member's date metadata is unresolved, the by-date root
listing contains a `.status` file reporting `done ≤ todo` with
`todo = N` (the history length); once every member is resolved, no by-date
listing at any prefix contains a `.status` file, and the recursively listed
by-date tree is exactly the year/month/day calendar partition of the N
commit dates. -/
theorem byDate_status_and_calendar (cache : Swhid → Option DateMeta)
    (history : List Swhid) :
    ((∃ s ∈ history, cache s = none) →
      ∃ done, done ≤ history.length
        ∧ ByDateEntry.status done history.length
            ∈ RevisionHistoryShardByDate.compute_entries cache history [])
    ∧ ((∀ s ∈ history, (cache s).isSome) →
      (∀ pre done todo, ByDateEntry.status done todo
          ∉ RevisionHistoryShardByDate.compute_entries cache history pre)
      ∧ byDateTree cache history = calendarTree (history.filterMap cache)) := by
  constructor
  · intro h
    exact ⟨(history.filter (fun s => (cache s).isSome)).length,
      List.length_filter_le _ _, byDate_status_mem cache history [] h⟩
  · intro h
    exact ⟨fun pre done todo => byDate_no_status cache history pre h done todo,
      byDateTree_calendar cache history h⟩

/-- C3: `by-page` partitions the history (also when empty) into consecutive
pages: the computed pages are exactly the consecutive `PAGE_SIZE`-element
chunks of the sequence numbered from 0, every page except possibly the last
has exactly `PAGE_SIZE` elements (and none is empty or larger), their
concatenation restores the whole sequence in order, and the i-th page
directory is named by the zero-padded page index `PAGE_FMT i`. -/
theorem byPage_partition (history : List Swhid) :
    RevisionHistoryShardByPage.fill_direntry_cache history
      = List.enumFrom 0 (chunks PAGE_SIZE history)
    ∧ (chunks PAGE_SIZE history).flatten = history
    ∧ (∀ c ∈ (chunks PAGE_SIZE history).dropLast, c.length = PAGE_SIZE)
    ∧ (∀ c ∈ chunks PAGE_SIZE history, 0 < c.length ∧ c.length ≤ PAGE_SIZE)
    ∧ (RevisionHistoryShardByPage.fill_direntry_cache history).map
          (fun p => PAGE_FMT p.1)
      = (List.range (chunks PAGE_SIZE history).length).map PAGE_FMT := by
  have hps : 0 < PAGE_SIZE := by norm_num [PAGE_SIZE]
  refine ⟨fill_pages_eq_chunks history, chunks_flatten _ hps history,
    chunks_dropLast_length _ hps history, chunks_bounds _ hps history, ?_⟩
  rw [fill_pages_eq_chunks history]
  rw [show (List.enumFrom 0 (chunks PAGE_SIZE history)).map (fun p => PAGE_FMT p.1)
      = ((List.enumFrom 0 (chunks PAGE_SIZE history)).map Prod.fst).map PAGE_FMT from by
    rw [List.map_map]; rfl]
  rw [List.enumFrom_map_fst, ← List.range_eq_range']

/-- C2: for a duplicate-free history whose digests all have length `n` and a
by-hash configuration with `0 < L` and `D·L ≤ n` (the digest is long enough
for the configured sharding, as with the 40-hex-character SWHIDs), the
recursively materialized by-hash tree has: leaves in bijection with the
history (exactly N leaves, no duplicate identifiers, no duplicate leaf
names — each leaf is named by the full identifier string `swhidStr`), the
concatenation of each leaf's ancestor directory names equal to the first
`D·L` digest characters, and for `D = 0` a flat directory of the N leaf
symlinks. -/
theorem byHash_sharded_listing (D L n : Nat) (history : List Swhid)
    (hL : 0 < L) (hDL : D * L ≤ n)
    (hlen : ∀ s ∈ history, s.objectId.length = n) (hnodup : history.Nodup) :
    List.Perm ((leavesList
        (RevisionHistoryShardByHash.fill_direntry_cache D L history).2).map Prod.snd)
      history
    ∧ (leavesList
        (RevisionHistoryShardByHash.fill_direntry_cache D L history).2).length
      = history.length
    ∧ ((leavesList
        (RevisionHistoryShardByHash.fill_direntry_cache D L history).2).map
          Prod.snd).Nodup
    ∧ ((leavesList
        (RevisionHistoryShardByHash.fill_direntry_cache D L history).2).map
          (fun p => swhidStr p.2)).Nodup
    ∧ (∀ p ∈ leavesList
          (RevisionHistoryShardByHash.fill_direntry_cache D L history).2,
        (p.1).flatten = (p.2.objectId).take (D * L))
    ∧ (D = 0 → (RevisionHistoryShardByHash.fill_direntry_cache D L history).2
        = history.map HashEntry.link) := by
  have hmain := fillT_leaves D L n hL hDL D [] history (Nat.le_refl D)
    (by simp) hlen
  rw [Nat.sub_self] at hmain
  have hperm : List.Perm
      ((leavesList (RevisionHistoryShardByHash.fill_direntry_cache D L history).2).map
        Prod.snd) history := by
    refine List.Perm.trans (hmain.map Prod.snd) ?_
    rw [List.map_map]
    rw [show (Prod.snd ∘ fun s => ((segsFrom L 0 D s : List (List Char)), s))
        = id from rfl]
    rw [List.map_id]
  refine ⟨hperm, ?_, ?_, ?_, ?_, ?_⟩
  · have := hperm.length_eq
    rw [List.length_map] at this
    exact this
  · exact hperm.symm.nodup_iff.mp hnodup
  · have h1 : ((leavesList
        (RevisionHistoryShardByHash.fill_direntry_cache D L history).2).map
          (fun p => swhidStr p.2))
        = (((leavesList
            (RevisionHistoryShardByHash.fill_direntry_cache D L history).2).map
              Prod.snd).map swhidStr) := by
      rw [List.map_map]
      rfl
    rw [h1]
    exact (hperm.symm.nodup_iff.mp hnodup).map swhidStr_inj
  · intro p hp
    have hmem := hmain.mem_iff.mp hp
    obtain ⟨s, hs, heq⟩ := List.mem_map.mp hmem
    rw [← heq]
    rw [segsFrom_flatten L s D 0]
    simp
  · intro hD
    subst hD
    rfl

/-- C9: for both sharded views the complete children list of the node is
computed and written to the directory-entry cache before any child is
yielded: the execution trace is a block of `cache.direntry.set` events
followed by the yields of exactly the computed children, and the set block
contains the node's own complete children list (for by-hash the root node's
prefix is `""`; for by-page the node's pages are stored after every page's
own children list). -/
theorem sharded_caches_set_before_yield (D L : Nat)
    (historyHash historyPage : List Swhid) :
    (RevisionHistoryShardByHash.compute_entries_trace D L historyHash
        = (RevisionHistoryShardByHash.fill_direntry_cache D L historyHash).1.map
            (fun p => HashEvent.set p.1 p.2)
          ++ (RevisionHistoryShardByHash.fill_direntry_cache D L historyHash).2.map
              HashEvent.yieldEntry
      ∧ ([], (RevisionHistoryShardByHash.fill_direntry_cache D L historyHash).2)
          ∈ (RevisionHistoryShardByHash.fill_direntry_cache D L historyHash).1)
    ∧ (∃ sets, RevisionHistoryShardByPage.compute_entries_trace historyPage
        = sets ++ (RevisionHistoryShardByPage.fill_direntry_cache historyPage).map
            PageEvent.yieldEntry
      ∧ PageEvent.setSelf (RevisionHistoryShardByPage.fill_direntry_cache historyPage)
          ∈ sets
      ∧ ∀ e ∈ sets, (∃ m cs, e = PageEvent.setPage m cs)
          ∨ ∃ pl, e = PageEvent.setSelf pl) := by
  refine ⟨⟨rfl, ?_⟩, ?_⟩
  · exact fillT_self_set D L D [] historyHash
  · refine ⟨(RevisionHistoryShardByPage.fill_direntry_cache historyPage).map
        (fun p => PageEvent.setPage p.1 p.2)
      ++ [PageEvent.setSelf (RevisionHistoryShardByPage.fill_direntry_cache
            historyPage)], ?_, ?_, ?_⟩
    · unfold RevisionHistoryShardByPage.compute_entries_trace
      dsimp only
    · exact List.mem_append_right _ (List.mem_singleton.mpr rfl)
    · intro e he
      rcases List.mem_append.mp he with h | h
      · obtain ⟨p, _, hp⟩ := List.mem_map.mp h
        exact Or.inl ⟨p.1, p.2, hp.symm⟩
      · exact Or.inr ⟨_, List.mem_singleton.mp h⟩

/-! ### Concrete instances used by the witnesses -/

/-- A blob fetcher returning empty content (the witnesses never read it). -/
def witBlob : Swhid → List Char := fun _ => []

/-- A metadata cache where every revision's date is already cached. -/
def witCacheAll : Swhid → Option DateMeta :=
  fun s => if s.objectType = ObjectType.rev then some ⟨2020, 1, 15⟩ else none

/-- A metadata cache with nothing cached. -/
def witCacheNone : Swhid → Option DateMeta := fun _ => none

/-- Release metadata: every release targets the revision `02`, every revision
has tree `03`. -/
def witGetMeta : Swhid → ObjMeta :=
  fun s => if s.objectType = ObjectType.rel
    then ⟨⟨ObjectType.rev, strL "02"⟩, ⟨ObjectType.dir, strL "03"⟩⟩
    else ⟨⟨ObjectType.cnt, strL "04"⟩, ⟨ObjectType.dir, strL "03"⟩⟩

theorem byHash_sharded_listing_witness :
    (leavesList (RevisionHistoryShardByHash.fill_direntry_cache 2 2
      [⟨ObjectType.rev, strL "abcd"⟩, ⟨ObjectType.rev, strL "abce"⟩]).2).length = 2 :=
  (byHash_sharded_listing 2 2 4
    [⟨ObjectType.rev, strL "abcd"⟩, ⟨ObjectType.rev, strL "abce"⟩]
    (by decide) (by decide) (by decide) (by decide)).2.1

theorem byPage_partition_witness :
    RevisionHistoryShardByPage.fill_direntry_cache [⟨ObjectType.rev, strL "ab"⟩]
      = List.enumFrom 0 (chunks PAGE_SIZE [⟨ObjectType.rev, strL "ab"⟩]) :=
  (byPage_partition [⟨ObjectType.rev, strL "ab"⟩]).1

theorem byDate_status_and_calendar_witness :
    byDateTree witCacheAll [⟨ObjectType.rev, strL "ab"⟩]
      = calendarTree ([⟨ObjectType.rev, strL "ab"⟩].filterMap witCacheAll) :=
  ((byDate_status_and_calendar witCacheAll [⟨ObjectType.rev, strL "ab"⟩]).2
    (by decide)).2

theorem release_root_resolution_witness :
    RelEntry.symlink (strL "root")
        (pathJoin (strL "..") (strL "archive/" ++ swhidStr ⟨ObjectType.dir, strL "03"⟩))
      ∈ Release.compute_entries witGetMeta 3 (strL "..") ⟨ObjectType.rel, strL "01"⟩ :=
  (release_root_resolution witGetMeta 3 (strL "..")
    ⟨ObjectType.rel, strL "01"⟩).2.2.2.1 ⟨ObjectType.dir, strL "03"⟩ (by decide)

theorem directory_child_mode_canonical_witness :
    computeDirChild witBlob (strL "..")
        ⟨strL "sub", ⟨ObjectType.dir, strL "ab"⟩, 493⟩
      = Except.ok (TreeChild.directory (strL "sub") EntryMode.RDONLY_DIR
          ⟨ObjectType.dir, strL "ab"⟩) :=
  (directory_child_mode_canonical witBlob (strL "..")
    [⟨strL "sub", ⟨ObjectType.dir, strL "ab"⟩, 493⟩]
    ⟨strL "sub", ⟨ObjectType.dir, strL "ab"⟩, 493⟩ [] (by decide)).1

theorem directory_unknown_kind_fatal_witness :
    ∃ msg, Directory.compute_entries witBlob (strL "..")
      [⟨strL "odd", ⟨ObjectType.snp, strL "ab"⟩, 420⟩] = Except.error msg :=
  directory_unknown_kind_fatal witBlob (strL "..")
    [⟨strL "odd", ⟨ObjectType.snp, strL "ab"⟩, 420⟩]
    ⟨strL "odd", ⟨ObjectType.snp, strL "ab"⟩, 420⟩
    (by decide) (by decide) (by decide)

theorem snapshot_branches_percent_encoded_witness :
    (Snapshot.compute_entries (strL "..")
      [⟨asciiBytes "feature/x", ⟨ObjectType.rev, strL "ab"⟩⟩]).length = 1 :=
  (snapshot_branches_percent_encoded (strL "..")
    [⟨asciiBytes "feature/x", ⟨ObjectType.rev, strL "ab"⟩⟩]).1

theorem sharded_caches_set_before_yield_witness :
    ([], (RevisionHistoryShardByHash.fill_direntry_cache 1 2
        [⟨ObjectType.rev, strL "ab"⟩]).2)
      ∈ (RevisionHistoryShardByHash.fill_direntry_cache 1 2
          [⟨ObjectType.rev, strL "ab"⟩]).1 :=
  (sharded_caches_set_before_yield 1 2 [⟨ObjectType.rev, strL "ab"⟩]
    [⟨ObjectType.rev, strL "ab"⟩]).1.2

theorem byDate_status_counts_whole_history_witness :
    ByDateEntry.status 0 1
      ∈ RevisionHistoryShardByDate.compute_entries witCacheNone
          [⟨ObjectType.rev, strL "ab"⟩] (strL "2020/") :=
  (byDate_status_counts_whole_history witCacheNone [⟨ObjectType.rev, strL "ab"⟩]
    (strL "2020/") ⟨⟨ObjectType.rev, strL "ab"⟩, by decide, rfl⟩).1
